import Mathlib

/-!
A shallow embedding of the mutable hash-array-mapped trie (`MHashTree.cc`)
and of the inline-buffer vector (`SmallVector.hh`) of the Fleece repository,
with proofs of the specification's claims about them.

Machine integers are modelled as `Nat` with explicit truncation where the
source relies on a fixed width (`hash_t` is 64-bit `size_t`; the bitmap is a
32-bit word; `smallVector`'s `_size`/`_capacity` are `uint32_t`).
C++ pointer structures are modelled as inductive values; in-place mutation
becomes functional update.  A C++ `assert` (or an out-of-bounds array read,
which is undefined behaviour) is modelled by returning `none` / a dedicated
failure constructor from the operation that would perform it.
-/

namespace Fleece

/-! ### Bitmap

`Bitmap<uint32_t>` (from `Bitmap.hh`, whose users but not itself appear in
the sources).  Modelled from the spec: `bitCount` is popcount of the 32-bit
word, `indexOfBit(b) = popcount(bitmap & (bit(b) − 1))` (the number of set
bits strictly below `b`), `containsBit` tests a bit, `addBit` sets it,
`removeBit` clears it, `empty` means the word is zero. -/

/-- Number of set bits of `b` at positions `< n`.
`popcountBelow b 32` is `Bitmap<uint32_t>::bitCount()` for `b < 2^32`. -/
def popcountBelow (b n : Nat) : Nat :=
  (List.range n).countP (fun i => b.testBit i)

/-- Modelled from the spec: `physIndex(slice) = popcount(bitmap & (bit(slice) − 1))`,
i.e. `Bitmap::indexOfBit`, which `InteriorNode::childIndexForBitNumber` calls. -/
def childIdx (b bitNo : Nat) : Nat := popcountBelow b bitNo

/-- Modelled from the spec: `Bitmap::addBit` sets the bit. -/
def addBit (b bitNo : Nat) : Nat := b ||| (1 <<< bitNo)

/-- Modelled from the spec: `Bitmap::removeBit` clears the bit.
For a `Nat` carrier, clearing a set bit is subtracting its weight. -/
def removeBit (b bitNo : Nat) : Nat :=
  if b.testBit bitNo then b - (1 <<< bitNo) else b

/-- `InteriorNode::childBitNumber(hash, shift) = (hash >> shift) & (kMaxChildren-1)`
with `kMaxChildren = 32`. -/
def childBitNumber (hash shift : Nat) : Nat := (hash >>> shift) &&& 31

/-! ### Nodes

`mhashtree::Node` is either a `LeafNode` (hash, key, value) or an
`InteriorNode` (bitmap, capacity, compacted child array).  The C++
distinguishes them by a zero-capacity sentinel; here they are the two
constructors of an inductive type.  The instantiated tree is
`MHashTree<alloc_slice,int>`, so keys are modelled as `Nat` (with a
caller-supplied hash function standing for `std::hash`) and values as `Int`
(whose default-constructed value is `0`).  An interior node's compacted
child array `_children[0.._capacity)` holds `childCount()` meaningful
entries; the model's list holds exactly the meaningful entries, and
`capacity` records `_capacity`. -/

inductive Node where
  | leaf (hash : Nat) (key : Nat) (val : Int)
  | interior (bitmap : Nat) (capacity : Nat) (children : List Node)

instance : Inhabited Node := ⟨.leaf 0 0 0⟩

mutual

/-- All (hash, key, value) triples of the leaves of a node, left to right. -/
def entries : Node → List (Nat × Nat × Int)
  | .leaf h k v => [(h, k, v)]
  | .interior _ _ ch => entriesL ch

/-- `entries` over a child list. -/
def entriesL : List Node → List (Nat × Nat × Int)
  | [] => []
  | c :: cs => entries c ++ entriesL cs

end

mutual

/-- `InteriorNode::itemCount`: iterates over the first `childCount()`
children, counting 1 per leaf child and recursing into interior children.
(`childCount()` is the bitmap's popcount; if it exceeded the real child
list — impossible in a well-formed node — the C++ would read garbage, and
the model counts the missing slots as 0.)  The contribution of one child is
`itemCountN`; a leaf child contributes 1. -/
def itemCountN : Node → Nat
  | .leaf _ _ _ => 1
  | .interior bm _ ch => itemCountL (popcountBelow bm 32) ch

/-- The loop of `InteriorNode::itemCount`, bounded by `childCount()`. -/
def itemCountL : Nat → List Node → Nat
  | 0, _ => 0
  | _ + 1, [] => 0
  | n + 1, c :: cs => itemCountN c + itemCountL n cs

end

/-- Result of `InteriorNode::findNearest`: `assertFail` models the failed
`assert(i < _capacity)` inside `childForBitNumber` (reading a child slot
that does not exist), `notFound` is the `nullptr` return, `found` is a leaf
pointer (the "closest match; not guaranteed to have right hash"). -/
inductive FindRes where
  | assertFail
  | notFound
  | found (hash key : Nat) (val : Int)

mutual

/-- `InteriorNode::findNearest(hash)`: branch on the low 5 bits of the
(already shifted) hash; if the bitmap bit is clear return null; otherwise
dispatch on the compacted child slot.  (Never called on a leaf; that case
is mapped to `assertFail`.) -/
def findNearest : Node → Nat → FindRes
  | .leaf _ _ _, _ => .assertFail
  | .interior bm _ ch, hash =>
    if bm.testBit (childBitNumber hash 0) then
      findNearestAt ch[childIdx bm (childBitNumber hash 0)]? hash
    else .notFound
termination_by n _ => sizeOf n
decreasing_by
  rcases hx : ch[childIdx bm (childBitNumber hash 0)]? with - | c
  · have h1 : 1 ≤ sizeOf ch := by
      cases ch
      · simp
      · simp only [List.cons.sizeOf_spec]
        omega
    simp only [hx, Node.interior.sizeOf_spec, Option.none.sizeOf_spec]
    omega
  · have hmem : c ∈ ch := by
      obtain ⟨hlt, hget⟩ := List.getElem?_eq_some.mp hx
      exact hget ▸ List.getElem_mem hlt
    have h1 := List.sizeOf_lt_of_mem hmem
    simp only [hx, Node.interior.sizeOf_spec, Option.some.sizeOf_spec]
    omega

/-- The continuation of `findNearest` after `childForBitNumber`: `none` is
the out-of-range read (the failed `assert(i < _capacity)`), a leaf child is
returned as the nearest match, an interior child is recursed into with the
hash shifted right by `kBitShift = 5`. -/
def findNearestAt : Option Node → Nat → FindRes
  | none, _ => .assertFail
  | some (.leaf lh lk lv), _ => .found lh lk lv
  | some (.interior b2 c2 ch2), hash => findNearest (.interior b2 c2 ch2) (hash >>> 5)
termination_by o _ => sizeOf o
decreasing_by
  simp only [Node.interior.sizeOf_spec, Option.some.sizeOf_spec]
  omega

end

/-- The capacity of a fresh non-root interior node created when `insert`
splits a leaf at shift `s`: the source's `2 + (level<1) + (level<3)` with
`level = shift / kBitShift`. -/
def newNodeCapacity (shift : Nat) : Nat :=
  2 + (if shift / 5 < 1 then 1 else 0) + (if shift / 5 < 3 then 1 else 0)

/-- `InteriorNode::addChild(bitNo, child)` on a node `(bm, cap, ch)`:
computes the physical index, grows the node (a reallocated copy with
capacity `cap + 1`, the original freed) when `childCount() == _capacity`,
then `_addChild` shifts the tail right, stores the child and sets the
bitmap bit.  In list form the shift-and-store is an insertion at the
physical index. -/
def addChildN (bm cap : Nat) (ch : List Node) (bitNo : Nat) (child : Node) : Node :=
  .interior (addBit bm bitNo)
    (if popcountBelow bm 32 < cap then cap else cap + 1)
    (ch.insertIdx (childIdx bm bitNo) child)

/-- `InteriorNode::insert(target, val, shift)` on a node `(bm, cap, ch)`.
`none` models the failed `assert(shift + kBitShift < 8*sizeof(hash_t))`
(hash-depth exhaustion) or an out-of-range child-slot read.  Returns the
node that replaces `this` (the C++ returns a pointer, possibly to a grown
reallocation).  The three-way case split follows the source: empty slot →
add a leaf; leaf slot → overwrite on a full (hash, key) match, otherwise
interpose a fresh interior node holding the old leaf and re-insert deeper;
interior slot → recurse with the shift advanced by 5. -/
def insertN : Node → Nat → Nat → Int → Nat → Option Node
  | .leaf _ _ _, _, _, _, _ => none
  | .interior bm cap ch, h, k, v, s =>
    if hs : s + 5 < 64 then
      if bm.testBit (childBitNumber h s) then
        match ch[childIdx bm (childBitNumber h s)]? with
        | none => none
        | some (.leaf lh lk lv) =>
          if lh = h ∧ lk = k then
            some (.interior bm cap
              (ch.set (childIdx bm (childBitNumber h s)) (.leaf lh lk v)))
          else
            match insertN (addChildN 0 (newNodeCapacity s) []
                (childBitNumber lh (s + 5)) (.leaf lh lk lv)) h k v (s + 5) with
            | none => none
            | some n1 =>
              some (.interior bm cap (ch.set (childIdx bm (childBitNumber h s)) n1))
        | some (.interior b2 c2 ch2) =>
          match insertN (.interior b2 c2 ch2) h k v (s + 5) with
          | none => none
          | some n1 =>
            some (.interior bm cap (ch.set (childIdx bm (childBitNumber h s)) n1))
      else
        some (addChildN bm cap ch (childBitNumber h s) (.leaf h k v))
    else none
termination_by _ _ _ _ s => 64 - s
decreasing_by all_goals omega

/-- `InteriorNode::remove(target, shift)`.  `none` models the failed
`assert(shift + kBitShift < 8*sizeof(hash_t))` at the head or an
out-of-range child-slot read (including the impossible case of a recursive
remove handing back a leaf, which the in-place C++ mutation cannot
produce).  Otherwise returns the C++ `bool` together with the node that
replaces `this`: a matching leaf slot is removed (tail shifted left, bitmap
bit cleared) and the leaf freed; an interior child that becomes empty
(bitmap 0) after a successful recursive remove is removed the same way and
freed. -/
def removeN : Node → Nat → Nat → Nat → Option (Bool × Node)
  | .leaf _ _ _, _, _, _ => none
  | .interior bm cap ch, h, k, s =>
    if hs : s + 5 < 64 then
      if bm.testBit (childBitNumber h s) then
        match ch[childIdx bm (childBitNumber h s)]? with
        | none => none
        | some (.leaf lh lk _) =>
          if lh = h ∧ lk = k then
            some (true, .interior (removeBit bm (childBitNumber h s)) cap
              (ch.eraseIdx (childIdx bm (childBitNumber h s))))
          else
            some (false, .interior bm cap ch)
        | some (.interior b2 c2 ch2) =>
          match removeN (.interior b2 c2 ch2) h k (s + 5) with
          | none => none
          | some (false, _) => some (false, .interior bm cap ch)
          | some (true, .leaf _ _ _) => none
          | some (true, .interior b3 c3 ch3) =>
            if b3 = 0 then
              some (true, .interior (removeBit bm (childBitNumber h s)) cap
                (ch.eraseIdx (childIdx bm (childBitNumber h s))))
            else
              some (true, .interior bm cap
                (ch.set (childIdx bm (childBitNumber h s)) (.interior b3 c3 ch3)))
      else
        some (false, .interior bm cap ch)
    else none
termination_by _ _ _ s => 64 - s
decreasing_by all_goals omega

/-! ### The `MHashTree` public interface

`MHashTree<Key,Val>` holds `_root : unique_ptr<InteriorNode>`, null until
the first insert.  The instantiation under test is
`MHashTree<alloc_slice,int>`. -/

/-- `std::hash<Key>()(key)` is a `size_t`, i.e. a 64-bit word: an arbitrary
caller-supplied hash function truncated to 64 bits. -/
def hashOf (hf : Nat → Nat) (k : Nat) : Nat := hf k % 2 ^ 64

/-- `InteriorNode::newRoot()`: an interior node with capacity
`kMaxChildren = 32`, empty bitmap, no children. -/
def newRoot : Node := .interior 0 32 []

/-- `MHashTree::count()`: `_root ? _root->itemCount() : 0`. -/
def treeCount (t : Option Node) : Nat :=
  match t with
  | none => 0
  | some r => itemCountN r

/-- `MHashTree::get(key)`: hash the key, walk down with `findNearest`, and
return the found leaf's value only when both hash and key match exactly
(`Target::matches`); otherwise the default-constructed `Val` — here `0`.
(An `assertFail` descent would abort the process rather than return; the
model maps it to the default value, and it is proved unreachable on
well-formed trees.) -/
def treeGet (hf : Nat → Nat) (t : Option Node) (k : Nat) : Int :=
  match t with
  | none => 0
  | some r =>
    match findNearest r (hashOf hf k) with
    | .found lh lk lv => if lh = hashOf hf k ∧ lk = k then lv else 0
    | _ => 0

/-- `MHashTree::insert(key, val)`: materialize the root if absent, then
`_root->insert(Target(key), val, 0)`.  `none` propagates an assertion
failure inside the node-level insert. -/
def treeInsert (hf : Nat → Nat) (t : Option Node) (k : Nat) (v : Int) :
    Option (Option Node) :=
  match insertN (t.getD newRoot) (hashOf hf k) k v 0 with
  | none => none
  | some r => some (some r)

/-- `MHashTree::remove(key)`: `_root != nullptr && _root->remove(Target(key), 0)`.
The root is never collapsed, even when its bitmap becomes empty.  `none`
propagates an assertion failure inside the node-level remove. -/
def treeRemove (hf : Nat → Nat) (t : Option Node) (k : Nat) :
    Option (Bool × Option Node) :=
  match t with
  | none => some (false, none)
  | some r =>
    match removeN r (hashOf hf k) k 0 with
    | none => none
    | some (b, r2) => some (b, some r2)

/-- One public mutation of the tree. -/
inductive Op where
  | ins (k : Nat) (v : Int)
  | del (k : Nat)

/-- Run a sequence of public mutations; `none` as soon as one hits an
assertion failure (the process would have aborted there). -/
def runOps (hf : Nat → Nat) : Option Node → List Op → Option (Option Node)
  | t, [] => some t
  | t, .ins k v :: ops =>
    match treeInsert hf t k v with
    | none => none
    | some t' => runOps hf t' ops
  | t, .del k :: ops =>
    match treeRemove hf t k with
    | none => none
    | some (_, t') => runOps hf t' ops

/-- The set of keys inserted and not subsequently removed by a sequence of
mutations. -/
def survivors (ops : List Op) : Finset Nat :=
  ops.foldl
    (fun s op =>
      match op with
      | .ins k _ => insert k s
      | .del k => s.erase k) ∅

/-- All (hash, key, value) triples stored in the tree. -/
def entriesT (t : Option Node) : List (Nat × Nat × Int) :=
  match t with
  | none => []
  | some r => entries r

/-- The stored keys, in entry order. -/
def keysT (t : Option Node) : List Nat :=
  (entriesT t).map (fun e => e.2.1)

/-! ### Invariants -/

/-- The structural invariant of spec §8.1 for one interior node: the
bitmap's popcount equals the number of (non-null) children, which is at
most the capacity, which is at most 32; the bitmap fits in 32 bits. -/
def shapeOk (bm cap : Nat) (ch : List Node) : Prop :=
  bm < 2 ^ 32 ∧ popcountBelow bm 32 = ch.length ∧ ch.length ≤ cap ∧ cap ≤ 32

/-- `shapeOk` at every interior node of a subtree. -/
def wfShape : Node → Prop
  | .leaf _ _ _ => True
  | .interior bm cap ch => shapeOk bm cap ch ∧ ∀ c ∈ ch, wfShape c
termination_by n => sizeOf n
decreasing_by
  have h1 := List.sizeOf_lt_of_mem (by assumption : c ∈ ch)
  simp only [Node.interior.sizeOf_spec]
  omega

/-- Full well-formedness of a subtree rooted at shift `s`: the shape
invariant, the depth bound that makes the hash-depth assertions pass
(`s + 5 < 64` wherever an interior node sits), and the path invariant —
the child stored at the physical index of set bit `b` exists, is itself
well-formed one level deeper, and all leaves below it have hash slice `b`
at shift `s`. -/
def wfNode : Nat → Node → Prop
  | _, .leaf _ _ _ => True
  | s, .interior bm cap ch =>
    shapeOk bm cap ch ∧ s + 5 < 64 ∧
    ∀ b, b < 32 → bm.testBit b →
      ∃ hlt : childIdx bm b < ch.length,
        wfNode (s + 5) (ch.get ⟨childIdx bm b, hlt⟩) ∧
        ∀ e ∈ entries (ch.get ⟨childIdx bm b, hlt⟩), childBitNumber e.1 s = b
termination_by _ n => sizeOf n
decreasing_by
  have h1 := List.sizeOf_lt_of_mem (List.get_mem ch _ hlt)
  simp only [Node.interior.sizeOf_spec] at h1 ⊢
  omega

/-- Well-formedness of the whole tree: the root, when present, is an
interior node of capacity 32 and well-formed at shift 0. -/
def wfTree : Option Node → Prop
  | none => True
  | some (.leaf _ _ _) => False
  | some (.interior bm cap ch) => cap = 32 ∧ wfNode 0 (.interior bm cap ch)

/-- `wfShape` on the whole tree. -/
def wfShapeTree : Option Node → Prop
  | none => True
  | some r => wfShape r

mutual

/-- A leaf value re-keyed to `0`: two nodes with equal `stripVals` have
identical bitmaps, capacities, child arrangement and leaf (hash, key)s,
differing at most in stored values. -/
def stripVals : Node → Node
  | .leaf h k _ => .leaf h k 0
  | .interior bm cap ch => .interior bm cap (stripValsL ch)

/-- `stripVals` over a child list. -/
def stripValsL : List Node → List Node
  | [] => []
  | c :: cs => stripVals c :: stripValsL cs

end

/-! ### smallVector

`smallVector<T,N>` from `SmallVector.hh`, at `T = int` (so a
default-constructed element is `0`).  The abstract state is the sequence of
constructed elements (`_size` is its length), the allocated `_capacity`,
and whether storage is currently the heap buffer (`_big != nullptr`) or the
inline buffer.  `realloc` is modelled as always succeeding (allocation
exhaustion is out of scope of the claims). -/

structure smallVector where
  elems : List Int
  capacity : Nat
  big : Bool

/-- The two "fail loudly" exits of `smallVector::setCapacity`. -/
inductive SVError where
  | shrinkBelowSize   -- std::logic_error("capacity smaller than size")
  | capacityTooLarge  -- std::domain_error("capacity too large")

/-- A fresh `smallVector<int,N>`: no elements, `_capacity = N`, inline. -/
def smallVector.init (N : Nat) : smallVector := ⟨[], N, false⟩

/-- `smallVector::setCapacity(cap)` with inline capacity `N`: no-op when
`cap == _capacity`; `logic_error` when `cap < _size`; `domain_error` when
`cap > UINT32_MAX`; otherwise move to the inline buffer (`cap <= N`) or
(re)allocate the heap buffer, and record the new capacity. -/
def smallVector.setCapacity (N : Nat) (sv : smallVector) (cap : Nat) :
    Except SVError smallVector :=
  if cap = sv.capacity then .ok sv
  else if cap < sv.elems.length then .error .shrinkBelowSize
  else if cap > 2 ^ 32 - 1 then .error .capacityTooLarge
  else if cap ≤ N then .ok ⟨sv.elems, cap, false⟩
  else .ok ⟨sv.elems, cap, true⟩

/-- `smallVector::push_back` (and `emplace_back`, which shares `_grow`):
when `_size >= _capacity`, first
`setCapacity(max(_capacity + _capacity/2, _size + 1))`; then construct the
new element at index `_size` and increment `_size`. -/
def smallVector.push_back (N : Nat) (sv : smallVector) (t : Int) :
    Except SVError smallVector :=
  if sv.elems.length ≥ sv.capacity then
    match sv.setCapacity N (max (sv.capacity + sv.capacity / 2) (sv.elems.length + 1)) with
    | .error e => .error e
    | .ok sv' => .ok ⟨sv'.elems ++ [t], sv'.capacity, sv'.big⟩
  else .ok ⟨sv.elems ++ [t], sv.capacity, sv.big⟩

/-- `smallVector::pop_back()`: destroy the last element, decrement `_size`.
(On an empty vector the C++ debug assert would fire; the model leaves the
empty list unchanged, and either way capacity and storage are untouched.) -/
def smallVector.pop_back (sv : smallVector) : smallVector :=
  ⟨sv.elems.dropLast, sv.capacity, sv.big⟩

/-- `smallVector::erase(first, last)` for the iterator range at indices
`[first, last)`: destroy the range, shift the tail left, shrink `_size`. -/
def smallVector.erase (sv : smallVector) (first last : Nat) : smallVector :=
  ⟨sv.elems.take first ++ sv.elems.drop last, sv.capacity, sv.big⟩

/-- `smallVector::shrinkTo(sz)`: destroy the trailing elements when
`sz < _size`; no storage change. -/
def smallVector.shrinkTo (sv : smallVector) (sz : Nat) : smallVector :=
  if sz < sv.elems.length then ⟨sv.elems.take sz, sv.capacity, sv.big⟩ else sv

/-- `smallVector::clear()` is `shrinkTo(0)`. -/
def smallVector.clear (sv : smallVector) : smallVector := sv.shrinkTo 0

/-- `smallVector::resize(sz)`: growing default-constructs the new trailing
elements, first raising capacity to `sz` — or, past the inline capacity
`N`, to `max(_capacity + _capacity/2, sz)`; shrinking is `shrinkTo`. -/
def smallVector.resize (N : Nat) (sv : smallVector) (sz : Nat) :
    Except SVError smallVector :=
  if sz > sv.elems.length then
    let doGrow : Except SVError smallVector :=
      if sz > sv.capacity then
        sv.setCapacity N (if sz > N then max (sv.capacity + sv.capacity / 2) sz else sz)
      else .ok sv
    match doGrow with
    | .error e => .error e
    | .ok sv' => .ok ⟨sv'.elems ++ List.replicate (sz - sv'.elems.length) 0,
                      sv'.capacity, sv'.big⟩
  else .ok (sv.shrinkTo sz)

/-- `smallVector::reserve(cap)`: `if (cap > _capacity) setCapacity(cap)`. -/
def smallVector.reserve (N : Nat) (sv : smallVector) (cap : Nat) :
    Except SVError smallVector :=
  if cap > sv.capacity then sv.setCapacity N cap else .ok sv

/-! ## Theorems -/

/-! ### Basic facts about the bit utilities -/

theorem childBitNumber_eq_mod (hash shift : Nat) :
    childBitNumber hash shift = (hash >>> shift) % 32 := by
  have h31 : (31 : Nat) = 2 ^ 5 - 1 := rfl
  rw [childBitNumber, h31, Nat.and_pow_two_sub_one_eq_mod]

theorem childBitNumber_lt (hash shift : Nat) : childBitNumber hash shift < 32 := by
  rw [childBitNumber_eq_mod]; exact Nat.mod_lt _ (by norm_num)

theorem childBitNumber_shift (hash s : Nat) :
    childBitNumber (hash >>> s) 0 = childBitNumber hash s := by
  simp [childBitNumber]

theorem shiftRight_shiftRight (hash s : Nat) :
    (hash >>> s) >>> 5 = hash >>> (s + 5) := by
  rw [Nat.shiftRight_add]

/-! ### Popcount and bitmap toolkit -/

theorem popcountBelow_succ (b n : Nat) :
    popcountBelow b (n + 1) = popcountBelow b n + (if b.testBit n then 1 else 0) := by
  unfold popcountBelow
  rw [List.range_succ, List.countP_append]
  by_cases h : b.testBit n <;> simp [List.countP_cons, h]

theorem popcountBelow_mono (b : Nat) {m n : Nat} (h : m ≤ n) :
    popcountBelow b m ≤ popcountBelow b n :=
  List.Sublist.countP_le _ (List.range_sublist.mpr h)

theorem popcountBelow_le (b n : Nat) : popcountBelow b n ≤ n := by
  calc popcountBelow b n ≤ (List.range n).length := List.countP_le_length _
  _ = n := List.length_range n

theorem childIdx_lt_popcount {bm b n : Nat} (hb : b < n) (ht : bm.testBit b) :
    childIdx bm b < popcountBelow bm n := by
  have h1 : popcountBelow bm (b + 1) = popcountBelow bm b + 1 := by
    rw [popcountBelow_succ, if_pos ht]
  have h2 := popcountBelow_mono bm (show b + 1 ≤ n from hb)
  unfold childIdx
  omega

theorem childIdx_strict {bm b1 b2 : Nat} (h1 : bm.testBit b1) (hlt : b1 < b2) :
    childIdx bm b1 < childIdx bm b2 :=
  childIdx_lt_popcount hlt h1

theorem childIdx_ne {bm b1 b2 : Nat} (h1 : bm.testBit b1) (h2 : bm.testBit b2)
    (hne : b1 ≠ b2) : childIdx bm b1 ≠ childIdx bm b2 := by
  rcases lt_or_gt_of_ne hne with hl | hl
  · exact Nat.ne_of_lt (childIdx_strict h1 hl)
  · exact Nat.ne_of_gt (childIdx_strict h2 hl)

theorem popcountBelow_lt_of_not_testBit {bm b n : Nat} (hb : b < n)
    (ht : ¬ bm.testBit b) : popcountBelow bm n < n := by
  have hle := popcountBelow_le bm n
  rcases lt_or_eq_of_le hle with h | h
  · exact h
  · exfalso
    have hall : ∀ a ∈ List.range n, bm.testBit a = true :=
      List.countP_eq_length.mp (h.trans (List.length_range n).symm)
    exact ht (hall b (List.mem_range.mpr hb))

theorem shiftLeft_one (b : Nat) : 1 <<< b = 2 ^ b := by
  rw [Nat.shiftLeft_eq, one_mul]

theorem testBit_addBit (bm b i : Nat) :
    (addBit bm b).testBit i = (bm.testBit i || decide (i = b)) := by
  unfold addBit
  rw [Nat.testBit_lor, shiftLeft_one]
  by_cases h : b = i
  · subst h; simp [Nat.testBit_two_pow_self]
  · simp [Nat.testBit_two_pow_of_ne h, Ne.symm h]

theorem sub_pow_decomp {bm b : Nat} (ht : bm.testBit b) :
    bm - 2 ^ b = 2 ^ (b + 1) * (bm >>> (b + 1)) + bm % 2 ^ b ∧
    bm = 2 ^ (b + 1) * (bm >>> (b + 1)) + (2 ^ b + bm % 2 ^ b) := by
  have hdm : bm / 2 ^ b % 2 = 1 := by
    have := Nat.testBit_to_div_mod (i := b) (x := bm)
    rw [ht] at this
    exact of_decide_eq_true this.symm
  have hmod : bm % 2 ^ (b + 1) = bm % 2 ^ b + 2 ^ b * 1 := by
    rw [pow_succ, Nat.mod_mul, hdm]
  have hdiv := Nat.div_add_mod bm (2 ^ (b + 1))
  have hsh : bm >>> (b + 1) = bm / 2 ^ (b + 1) := Nat.shiftRight_eq_div_pow _ _
  have hlt : bm % 2 ^ b < 2 ^ b := Nat.mod_lt _ (Nat.pos_pow_of_pos _ (by norm_num))
  have hpp : 2 ^ (b + 1) = 2 * 2 ^ b := by rw [pow_succ]; ring
  rw [hsh]
  omega

theorem testBit_removeBit (bm b i : Nat) :
    (removeBit bm b).testBit i = (bm.testBit i && !decide (i = b)) := by
  unfold removeBit
  by_cases ht : bm.testBit b
  · rw [if_pos ht, shiftLeft_one]
    obtain ⟨hA, hB⟩ := sub_pow_decomp ht
    have hlo : bm % 2 ^ b < 2 ^ b := Nat.mod_lt _ (Nat.pos_pow_of_pos _ (by norm_num))
    have hlo1 : bm % 2 ^ b < 2 ^ (b + 1) :=
      lt_of_lt_of_le hlo (Nat.pow_le_pow_right (by norm_num) (by omega))
    have hhi1 : 2 ^ b + bm % 2 ^ b < 2 ^ (b + 1) := by
      have : 2 ^ (b + 1) = 2 * 2 ^ b := by rw [pow_succ]; ring
      omega
    rw [hA, Nat.testBit_mul_pow_two_add _ hlo1 i]
    conv_rhs => rw [hB, Nat.testBit_mul_pow_two_add _ hhi1 i]
    rcases lt_trichotomy i b with hib | hib | hib
    · rw [if_pos (by omega), if_pos (by omega)]
      have h2b : (2 : Nat) ^ b + bm % 2 ^ b = 2 ^ b * 1 + bm % 2 ^ b := by ring
      rw [h2b, Nat.testBit_mul_pow_two_add _ hlo i, if_pos hib]
      simp [show i ≠ b from by omega]
    · subst hib
      rw [if_pos (by omega), if_pos (by omega)]
      simp [Nat.testBit_lt_two_pow hlo]
    · rw [if_neg (by omega), if_neg (by omega)]
      simp [show i ≠ b from by omega]
  · rw [if_neg ht]
    by_cases hib : i = b
    · subst hib; simp [ht]
    · simp [hib]

theorem popcountBelow_addBit {bm b : Nat} (ht : ¬ bm.testBit b) (n : Nat) :
    popcountBelow (addBit bm b) n = popcountBelow bm n + (if b < n then 1 else 0) := by
  induction n with
  | zero => simp [popcountBelow]
  | succ n ih =>
    rw [popcountBelow_succ, popcountBelow_succ, ih, testBit_addBit]
    by_cases hbn : b = n
    · subst hbn
      rw [if_neg (lt_irrefl b), if_pos (Nat.lt_succ_self b)]
      simp [ht]
    · have hd : decide (n = b) = false := by simp [Ne.symm hbn]
      rw [hd, Bool.or_false]
      by_cases hblt : b < n
      · rw [if_pos hblt, if_pos (show b < n + 1 from by omega)]
        omega
      · rw [if_neg hblt, if_neg (show ¬ b < n + 1 from by omega)]
        omega

theorem popcountBelow_removeBit {bm b : Nat} (ht : bm.testBit b) (n : Nat) :
    popcountBelow bm n = popcountBelow (removeBit bm b) n + (if b < n then 1 else 0) := by
  induction n with
  | zero => simp [popcountBelow]
  | succ n ih =>
    rw [popcountBelow_succ, popcountBelow_succ, ih, testBit_removeBit]
    by_cases hbn : b = n
    · subst hbn
      rw [if_pos (Nat.lt_succ_self b), if_pos ht]
      simp
    · have hd : decide (n = b) = false := by simp [Ne.symm hbn]
      rw [hd, Bool.not_false, Bool.and_true]
      by_cases hblt : b < n
      · rw [if_pos hblt, if_pos (show b < n + 1 from by omega)]
        omega
      · rw [if_neg hblt, if_neg (show ¬ b < n + 1 from by omega)]
        omega

theorem exists_bit_of_lt_popcount {bm n i : Nat} (h : i < popcountBelow bm n) :
    ∃ b, b < n ∧ bm.testBit b ∧ childIdx bm b = i := by
  induction n with
  | zero => simp [popcountBelow] at h
  | succ n ih =>
    rw [popcountBelow_succ] at h
    by_cases hi : i < popcountBelow bm n
    · obtain ⟨b, hb, htb, hidx⟩ := ih hi
      exact ⟨b, by omega, htb, hidx⟩
    · have htn : bm.testBit n := by
        by_contra hc
        rw [if_neg hc] at h
        omega
      refine ⟨n, by omega, htn, ?_⟩
      rw [if_pos htn] at h
      unfold childIdx
      omega

theorem addBit_lt {bm b : Nat} (h32 : bm < 2 ^ 32) (hb : b < 32) :
    addBit bm b < 2 ^ 32 := by
  unfold addBit
  rw [shiftLeft_one]
  exact Nat.or_lt_two_pow h32 (Nat.pow_lt_pow_right (by norm_num) hb)

theorem removeBit_le (bm b : Nat) : removeBit bm b ≤ bm := by
  unfold removeBit
  by_cases h : bm.testBit b <;> simp [h]

theorem testBit_ge_32 {bm i : Nat} (h32 : bm < 2 ^ 32) (hi : 32 ≤ i) :
    bm.testBit i = false :=
  Nat.testBit_lt_two_pow
    (lt_of_lt_of_le h32 (Nat.pow_le_pow_right (by norm_num) hi))

/-! ### Entry-list toolkit -/

theorem entriesL_nil : entriesL [] = [] := by rw [entriesL]

theorem entriesL_cons (c : Node) (cs : List Node) :
    entriesL (c :: cs) = entries c ++ entriesL cs := by rw [entriesL]

theorem entries_leaf (h k : Nat) (v : Int) : entries (.leaf h k v) = [(h, k, v)] := by
  rw [entries]

theorem entries_interior (bm cap : Nat) (ch : List Node) :
    entries (.interior bm cap ch) = entriesL ch := by rw [entries]

theorem entriesL_append (l1 l2 : List Node) :
    entriesL (l1 ++ l2) = entriesL l1 ++ entriesL l2 := by
  induction l1 with
  | nil => rw [entriesL_nil]; simp
  | cons c cs ih => simp only [List.cons_append, entriesL_cons, ih, List.append_assoc]

theorem insertIdx_eq_take_cons_drop {α : Type} (l : List α) (n : Nat) (a : α)
    (h : n ≤ l.length) :
    l.insertIdx n a = l.take n ++ a :: l.drop n := by
  induction l generalizing n with
  | nil =>
    have hn : n = 0 := by simpa using h
    subst hn; simp
  | cons x xs ih =>
    cases n with
    | zero => simp
    | succ n =>
      rw [List.insertIdx_succ_cons, ih n (by simpa using h)]
      simp

theorem entriesL_insertIdx (ch : List Node) (idx : Nat) (c : Node) (h : idx ≤ ch.length) :
    entriesL (ch.insertIdx idx c)
      = entriesL (ch.take idx) ++ entries c ++ entriesL (ch.drop idx) := by
  rw [insertIdx_eq_take_cons_drop _ _ _ h, entriesL_append, entriesL_cons,
    List.append_assoc]

theorem entriesL_set (ch : List Node) (idx : Nat) (c : Node) (h : idx < ch.length) :
    entriesL (ch.set idx c)
      = entriesL (ch.take idx) ++ entries c ++ entriesL (ch.drop (idx + 1)) := by
  rw [List.set_eq_take_append_cons_drop, if_pos h, entriesL_append, entriesL_cons,
    List.append_assoc]

theorem entriesL_eraseIdx (ch : List Node) (idx : Nat) :
    entriesL (ch.eraseIdx idx)
      = entriesL (ch.take idx) ++ entriesL (ch.drop (idx + 1)) := by
  rw [List.eraseIdx_eq_take_drop_succ, entriesL_append]

theorem entriesL_decomp (ch : List Node) (idx : Nat) (h : idx < ch.length) :
    entriesL ch = entriesL (ch.take idx) ++ entries ch[idx]
      ++ entriesL (ch.drop (idx + 1)) := by
  conv_lhs => rw [← List.take_append_drop idx ch]
  rw [List.drop_eq_getElem_cons h, entriesL_append, entriesL_cons, List.append_assoc]

theorem mem_entriesL {e : Nat × Nat × Int} {ch : List Node} :
    e ∈ entriesL ch ↔ ∃ i, ∃ hi : i < ch.length, e ∈ entries ch[i] := by
  induction ch with
  | nil => simp [entriesL_nil]
  | cons c cs ih =>
    rw [entriesL_cons, List.mem_append, ih]
    constructor
    · rintro (hc | ⟨i, hi, he⟩)
      · exact ⟨0, by simp, hc⟩
      · exact ⟨i + 1, by simpa using hi, he⟩
    · rintro ⟨i, hi, he⟩
      cases i with
      | zero => exact Or.inl he
      | succ i => exact Or.inr ⟨i, by simpa using hi, he⟩

/-- The entries kept by `insert`'s overwrite and by `remove`: those whose
(hash, key) does not fully match the target. -/
def keepEntry (h k : Nat) (e : Nat × Nat × Int) : Bool :=
  !(decide (e.1 = h) && decide (e.2.1 = k))

theorem keepEntry_false_iff (h k : Nat) (e : Nat × Nat × Int) :
    keepEntry h k e = false ↔ e.1 = h ∧ e.2.1 = k := by
  unfold keepEntry; simp

theorem keepEntry_true_iff (h k : Nat) (e : Nat × Nat × Int) :
    keepEntry h k e = true ↔ ¬(e.1 = h ∧ e.2.1 = k) := by
  unfold keepEntry; simp; tauto

theorem stripValsL_nil : stripValsL [] = [] := by rw [stripValsL]

theorem stripValsL_cons (c : Node) (cs : List Node) :
    stripValsL (c :: cs) = stripVals c :: stripValsL cs := by rw [stripValsL]

theorem stripValsL_set (ch : List Node) (idx : Nat) (c : Node) :
    stripValsL (ch.set idx c) = (stripValsL ch).set idx (stripVals c) := by
  induction ch generalizing idx with
  | nil => simp [stripValsL_nil]
  | cons x xs ih =>
    cases idx with
    | zero => simp [stripValsL_cons]
    | succ idx => simp [stripValsL_cons, ih]

theorem stripValsL_length (ch : List Node) : (stripValsL ch).length = ch.length := by
  induction ch with
  | nil => simp [stripValsL_nil]
  | cons x xs ih => simp [stripValsL_cons, ih]

theorem stripValsL_get (ch : List Node) (i : Nat) (h1 : i < (stripValsL ch).length)
    (h2 : i < ch.length) : (stripValsL ch)[i] = stripVals ch[i] := by
  induction ch generalizing i with
  | nil => simp at h2
  | cons x xs ih =>
    cases i with
    | zero => simp [stripValsL_cons]
    | succ i =>
      have h1x : i < (stripValsL xs).length := by
        rw [stripValsL_cons] at h1; simpa using h1
      simp only [stripValsL_cons, List.getElem_cons_succ]
      exact ih i h1x (by simpa using h2)

theorem stripValsL_set_get (ch : List Node) (idx : Nat) (hidx : idx < ch.length) (c : Node)
    (hc : stripVals c = stripVals ch[idx]) :
    stripValsL (ch.set idx c) = stripValsL ch := by
  rw [stripValsL_set, hc]
  apply List.ext_getElem
  · simp [stripValsL_length]
  · intro i h1 h2
    rw [List.getElem_set]
    by_cases hii : idx = i
    · subst hii
      rw [if_pos rfl, stripValsL_get ch idx h2 hidx]
    · rw [if_neg hii]

/-! ### Well-formedness toolkit -/

theorem wfNode_leaf (s hsh k : Nat) (v : Int) : wfNode s (.leaf hsh k v) := by
  rw [wfNode]; trivial

theorem wfNode_interior (s bm cap : Nat) (ch : List Node) :
    wfNode s (.interior bm cap ch) ↔
      (shapeOk bm cap ch ∧ s + 5 < 64 ∧
        ∀ b, b < 32 → bm.testBit b →
          ∃ hlt : childIdx bm b < ch.length,
            wfNode (s + 5) (ch.get ⟨childIdx bm b, hlt⟩) ∧
            ∀ e ∈ entries (ch.get ⟨childIdx bm b, hlt⟩), childBitNumber e.1 s = b) := by
  rw [wfNode]

theorem wf_shape {s bm cap : Nat} {ch : List Node}
    (hwf : wfNode s (.interior bm cap ch)) : shapeOk bm cap ch :=
  ((wfNode_interior s bm cap ch).mp hwf).1

theorem wf_depth {s bm cap : Nat} {ch : List Node}
    (hwf : wfNode s (.interior bm cap ch)) : s + 5 < 64 :=
  ((wfNode_interior s bm cap ch).mp hwf).2.1

theorem wf_child_of_bit {s bm cap : Nat} {ch : List Node}
    (hwf : wfNode s (.interior bm cap ch)) {b : Nat} (hb : b < 32)
    (ht : bm.testBit b) :
    ∃ hlt : childIdx bm b < ch.length,
      wfNode (s + 5) ch[childIdx bm b] ∧
      ∀ e ∈ entries ch[childIdx bm b], childBitNumber e.1 s = b := by
  obtain ⟨hlt, h1, h2⟩ := ((wfNode_interior s bm cap ch).mp hwf).2.2 b hb ht
  rw [List.get_eq_getElem] at h1 h2
  exact ⟨hlt, h1, h2⟩

theorem childIdx_le_length {s bm cap : Nat} {ch : List Node}
    (hwf : wfNode s (.interior bm cap ch)) {b : Nat} (hb : b < 32) :
    childIdx bm b ≤ ch.length := by
  have hshape := wf_shape hwf
  calc childIdx bm b ≤ popcountBelow bm 32 := popcountBelow_mono bm (by omega)
  _ = ch.length := hshape.2.1

theorem wf_entry_at_idx {s bm cap : Nat} {ch : List Node}
    (hwf : wfNode s (.interior bm cap ch)) {i : Nat} (hi : i < ch.length)
    {e : Nat × Nat × Int} (he : e ∈ entries ch[i]) :
    ∃ b, b < 32 ∧ bm.testBit b ∧ childIdx bm b = i ∧ childBitNumber e.1 s = b := by
  have hshape := wf_shape hwf
  have hip : i < popcountBelow bm 32 := by rw [hshape.2.1]; exact hi
  obtain ⟨b, hb, ht, hidx⟩ := exists_bit_of_lt_popcount hip
  obtain ⟨hlt, -, hslice⟩ := wf_child_of_bit hwf hb ht
  refine ⟨b, hb, ht, hidx, ?_⟩
  apply hslice
  have : ch[childIdx bm b] = ch[i] := by congr 1
  rw [this]
  exact he

theorem wf_child_at_idx {s bm cap : Nat} {ch : List Node}
    (hwf : wfNode s (.interior bm cap ch)) {i : Nat} (hi : i < ch.length) :
    wfNode (s + 5) ch[i] := by
  have hshape := wf_shape hwf
  have hip : i < popcountBelow bm 32 := by rw [hshape.2.1]; exact hi
  obtain ⟨b, hb, ht, hidx⟩ := exists_bit_of_lt_popcount hip
  obtain ⟨hlt, hwfc, -⟩ := wf_child_of_bit hwf hb ht
  have : ch[childIdx bm b] = ch[i] := by congr 1
  rw [← this]
  exact hwfc

theorem wf_entry_mem {s bm cap : Nat} {ch : List Node}
    (hwf : wfNode s (.interior bm cap ch)) {e : Nat × Nat × Int}
    (he : e ∈ entriesL ch) :
    bm.testBit (childBitNumber e.1 s) ∧
    ∃ hlt : childIdx bm (childBitNumber e.1 s) < ch.length,
      e ∈ entries ch[childIdx bm (childBitNumber e.1 s)] := by
  obtain ⟨i, hi, hei⟩ := mem_entriesL.mp he
  obtain ⟨b, hb, ht, hidx, hslice⟩ := wf_entry_at_idx hwf hi hei
  subst hslice
  refine ⟨ht, by rw [hidx]; exact hi, ?_⟩
  have : ch[childIdx bm (childBitNumber e.1 s)] = ch[i] := by congr 1
  rw [this]
  exact hei

/-- Entries stored under the target slice's slot all route to that slice. -/
theorem wf_slice_at_target {s bm cap : Nat} {ch : List Node} {h : Nat}
    (hwf : wfNode s (.interior bm cap ch))
    (ht : bm.testBit (childBitNumber h s))
    (hlt : childIdx bm (childBitNumber h s) < ch.length)
    {e : Nat × Nat × Int} (he : e ∈ entries ch[childIdx bm (childBitNumber h s)]) :
    childBitNumber e.1 s = childBitNumber h s := by
  obtain ⟨b2, hb2, ht2, hidx2, hsl2⟩ := wf_entry_at_idx hwf hlt he
  have hbb : b2 = childBitNumber h s := by
    by_contra hne
    exact childIdx_ne ht2 ht hne hidx2
  rw [hsl2, hbb]

/-- Under the well-formedness invariant the whole subtree satisfies the
shape invariant of spec §8.1. -/
theorem wfShape_of_wfNode :
    ∀ (m s : Nat), 64 ≤ m + s → ∀ n, wfNode s n → wfShape n := by
  intro m
  induction m with
  | zero =>
    intro s hm n hwf
    cases n with
    | leaf hh kk vv => rw [wfShape]; trivial
    | interior bm cap ch =>
      have := wf_depth hwf
      omega
  | succ m ih =>
    intro s hm n hwf
    cases n with
    | leaf hh kk vv => rw [wfShape]; trivial
    | interior bm cap ch =>
      rw [wfShape]
      refine ⟨wf_shape hwf, ?_⟩
      intro c hc
      obtain ⟨i, hi, hci⟩ := List.mem_iff_getElem.mp hc
      subst hci
      exact ih (s + 5) (by omega) _ (wf_child_at_idx hwf hi)

theorem itemCountL_zero (l : List Node) : itemCountL 0 l = 0 := by rw [itemCountL]

theorem itemCountL_succ_nil (n : Nat) : itemCountL (n + 1) [] = 0 := by rw [itemCountL]

theorem itemCountL_succ_cons (n : Nat) (c : Node) (cs : List Node) :
    itemCountL (n + 1) (c :: cs) = itemCountN c + itemCountL n cs := by rw [itemCountL]

theorem itemCountL_eq_len (ch : List Node)
    (hch : ∀ i (hi : i < ch.length), itemCountN ch[i] = (entries ch[i]).length) :
    itemCountL ch.length ch = (entriesL ch).length := by
  induction ch with
  | nil => rw [entriesL_nil, List.length_nil, itemCountL_zero, List.length_nil]
  | cons c cs ih =>
    rw [entriesL_cons, List.length_cons, itemCountL_succ_cons, List.length_append]
    have h0 := hch 0 (by simp)
    simp only [List.getElem_cons_zero] at h0
    rw [h0, ih (fun i hi => by
      have := hch (i + 1) (by simpa using hi)
      simpa using this)]

/-- `InteriorNode::itemCount` counts exactly the leaves of a well-formed
subtree. -/
theorem itemCount_entries :
    ∀ (m s : Nat), 64 ≤ m + s → ∀ n, wfNode s n → itemCountN n = (entries n).length := by
  intro m
  induction m with
  | zero =>
    intro s hm n hwf
    cases n with
    | leaf hh kk vv => rw [itemCountN, entries_leaf]; rfl
    | interior bm cap ch =>
      have := wf_depth hwf
      omega
  | succ m ih =>
    intro s hm n hwf
    cases n with
    | leaf hh kk vv => rw [itemCountN, entries_leaf]; rfl
    | interior bm cap ch =>
      rw [itemCountN, entries_interior, (wf_shape hwf).2.1]
      exact itemCountL_eq_len ch (fun i hi =>
        ih (s + 5) (by omega) _ (wf_child_at_idx hwf hi))

/-! ### `findNearest`: the lookup walk -/

theorem findNearest_leaf (lh lk : Nat) (lv : Int) (x : Nat) :
    findNearest (.leaf lh lk lv) x = .assertFail := by
  rw [findNearest]

theorem findNearest_eq (bm cap : Nat) (ch : List Node) (x : Nat) :
    findNearest (.interior bm cap ch) x =
      if bm.testBit (childBitNumber x 0) then
        findNearestAt ch[childIdx bm (childBitNumber x 0)]? x
      else .notFound := by
  rw [findNearest]

theorem findNearestAt_none (x : Nat) : findNearestAt none x = .assertFail := by
  rw [findNearestAt]

theorem findNearestAt_leaf (lh lk : Nat) (lv : Int) (x : Nat) :
    findNearestAt (some (.leaf lh lk lv)) x = .found lh lk lv := by
  rw [findNearestAt]

theorem findNearestAt_interior (b2 c2 : Nat) (ch2 : List Node) (x : Nat) :
    findNearestAt (some (.interior b2 c2 ch2)) x
      = findNearest (.interior b2 c2 ch2) (x >>> 5) := by
  rw [findNearestAt]

theorem findNearest_no_bit {bm : Nat} (cap : Nat) {ch : List Node} {x : Nat}
    (ht : ¬ bm.testBit (childBitNumber x 0)) :
    findNearest (.interior bm cap ch) x = .notFound := by
  rw [findNearest_eq, if_neg ht]

theorem findNearest_oob {bm : Nat} (cap : Nat) {ch : List Node} {x : Nat}
    (ht : bm.testBit (childBitNumber x 0))
    (hnone : ch[childIdx bm (childBitNumber x 0)]? = none) :
    findNearest (.interior bm cap ch) x = .assertFail := by
  rw [findNearest_eq, if_pos ht, hnone, findNearestAt_none]

theorem findNearest_at_leaf {bm : Nat} (cap : Nat) {ch : List Node} {x lh lk : Nat}
    {lv : Int} (ht : bm.testBit (childBitNumber x 0))
    (hsome : ch[childIdx bm (childBitNumber x 0)]? = some (.leaf lh lk lv)) :
    findNearest (.interior bm cap ch) x = .found lh lk lv := by
  rw [findNearest_eq, if_pos ht, hsome, findNearestAt_leaf]

theorem findNearest_at_interior {bm : Nat} (cap : Nat) {ch : List Node}
    {x b2 c2 : Nat} {ch2 : List Node} (ht : bm.testBit (childBitNumber x 0))
    (hsome : ch[childIdx bm (childBitNumber x 0)]? = some (.interior b2 c2 ch2)) :
    findNearest (.interior bm cap ch) x
      = findNearest (.interior b2 c2 ch2) (x >>> 5) := by
  rw [findNearest_eq, if_pos ht, hsome, findNearestAt_interior]

/-- In a well-formed subtree at shift `s`, `findNearest` fed the hash
shifted by `s` finds exactly the leaf carrying a stored entry. -/
theorem findNearest_found :
    ∀ (m s : Nat), 64 ≤ m + s → ∀ (bm cap : Nat) (ch : List Node),
      wfNode s (.interior bm cap ch) → ∀ (h k : Nat) (v : Int),
      (h, k, v) ∈ entriesL ch →
      findNearest (.interior bm cap ch) (h >>> s) = .found h k v := by
  intro m
  induction m with
  | zero =>
    intro s hm bm cap ch hwf h k v hmem
    have := wf_depth hwf
    omega
  | succ m ih =>
    intro s hm bm cap ch hwf h k v hmem
    obtain ⟨ht, hlt, hein⟩ := wf_entry_mem hwf hmem
    have hbit0 : childBitNumber (h >>> s) 0 = childBitNumber h s :=
      childBitNumber_shift h s
    have ht0 : bm.testBit (childBitNumber (h >>> s) 0) := by rw [hbit0]; exact ht
    have hsome : ch[childIdx bm (childBitNumber (h >>> s) 0)]?
        = some ch[childIdx bm (childBitNumber h s)] := by
      rw [hbit0]
      exact List.getElem?_eq_getElem hlt
    rcases hchild : ch[childIdx bm (childBitNumber h s)] with
      ⟨lh, lk, lv⟩ | ⟨b2, c2, ch2⟩
    · rw [hchild] at hsome hein
      rw [entries_leaf] at hein
      simp only [List.mem_singleton, Prod.mk.injEq] at hein
      obtain ⟨he1, he2, he3⟩ := hein
      subst he1; subst he2; subst he3
      exact findNearest_at_leaf cap ht0 hsome
    · rw [hchild] at hsome hein
      rw [entries_interior] at hein
      have hwfc : wfNode (s + 5) (.interior b2 c2 ch2) := by
        have := wf_child_at_idx hwf hlt
        rw [hchild] at this
        exact this
      rw [findNearest_at_interior cap ht0 hsome, shiftRight_shiftRight]
      exact ih (s + 5) (by omega) b2 c2 ch2 hwfc h k v hein

/-- Whatever leaf `findNearest` returns is one of the node's entries
(no well-formedness needed). -/
theorem findNearest_found_mem :
    ∀ (N : Nat) (n : Node), sizeOf n ≤ N → ∀ (x lh lk : Nat) (lv : Int),
      findNearest n x = .found lh lk lv → (lh, lk, lv) ∈ entries n := by
  intro N
  induction N with
  | zero =>
    intro n hsz
    cases n <;> simp [Node.leaf.sizeOf_spec, Node.interior.sizeOf_spec] at hsz
  | succ N ih =>
    intro n hsz x lh lk lv hfound
    cases n with
    | leaf a b c => rw [findNearest_leaf] at hfound; cases hfound
    | interior bm cap ch =>
      by_cases ht : bm.testBit (childBitNumber x 0)
      · rcases hsome : ch[childIdx bm (childBitNumber x 0)]? with - | c
        · rw [findNearest_oob cap ht hsome] at hfound; cases hfound
        · obtain ⟨hlt, hgot⟩ := List.getElem?_eq_some.mp hsome
          rcases c with ⟨ah, ak, av⟩ | ⟨b2, c2, ch2⟩
          · rw [findNearest_at_leaf cap ht hsome] at hfound
            cases hfound
            rw [entries_interior]
            exact mem_entriesL.mpr ⟨_, hlt, by rw [hgot, entries_leaf]; simp⟩
          · rw [findNearest_at_interior cap ht hsome] at hfound
            have hszc : sizeOf (Node.interior b2 c2 ch2) ≤ N := by
              have h1 : Node.interior b2 c2 ch2 ∈ ch := hgot ▸ List.getElem_mem hlt
              have h2 := List.sizeOf_lt_of_mem h1
              simp only [Node.interior.sizeOf_spec] at hsz ⊢
              simp only [Node.interior.sizeOf_spec] at h2
              omega
            have := ih _ hszc _ _ _ _ hfound
            rw [entries_interior] at this ⊢
            exact mem_entriesL.mpr ⟨_, hlt, by rw [hgot]; exact this⟩
      · rw [findNearest_no_bit cap ht] at hfound; cases hfound

/-- In a well-formed subtree the `assert(i < _capacity)` inside
`childForBitNumber` can never fire during a lookup, whatever the hash. -/
theorem findNearest_no_assertFail :
    ∀ (m s : Nat), 64 ≤ m + s → ∀ (bm cap : Nat) (ch : List Node),
      wfNode s (.interior bm cap ch) → ∀ x : Nat,
      findNearest (.interior bm cap ch) x ≠ .assertFail := by
  intro m
  induction m with
  | zero =>
    intro s hm bm cap ch hwf x
    have := wf_depth hwf
    omega
  | succ m ih =>
    intro s hm bm cap ch hwf x
    by_cases ht : bm.testBit (childBitNumber x 0)
    · have hb32 : childBitNumber x 0 < 32 := childBitNumber_lt x 0
      have hlt : childIdx bm (childBitNumber x 0) < ch.length := by
        have h1 := childIdx_lt_popcount hb32 ht
        rw [(wf_shape hwf).2.1] at h1
        exact h1
      have hsome : ch[childIdx bm (childBitNumber x 0)]?
          = some ch[childIdx bm (childBitNumber x 0)] := List.getElem?_eq_getElem hlt
      rcases hchild : ch[childIdx bm (childBitNumber x 0)] with
        ⟨lh, lk, lv⟩ | ⟨b2, c2, ch2⟩
      · rw [hchild] at hsome
        rw [findNearest_at_leaf cap ht hsome]
        intro hcon; cases hcon
      · rw [hchild] at hsome
        rw [findNearest_at_interior cap ht hsome]
        have hwfc : wfNode (s + 5) (.interior b2 c2 ch2) := by
          have := wf_child_at_idx hwf hlt
          rw [hchild] at this
          exact this
        exact ih (s + 5) (by omega) b2 c2 ch2 hwfc (x >>> 5)
    · rw [findNearest_no_bit cap ht]
      intro hcon; cases hcon

/-! ### Insert toolkit -/

theorem popcountBelow_zero (n : Nat) : popcountBelow 0 n = 0 := by
  unfold popcountBelow
  rw [List.countP_eq_zero]
  intro i hi
  simp [Nat.zero_testBit]

theorem newNodeCapacity_pos (s : Nat) : 0 < newNodeCapacity s := by
  unfold newNodeCapacity
  split <;> split <;> omega

theorem newNodeCapacity_le (s : Nat) : newNodeCapacity s ≤ 32 := by
  unfold newNodeCapacity
  split <;> split <;> omega

theorem getElem_insertIdx_ge {α : Type} (l : List α) (x : α) (n j : Nat)
    (hn : n ≤ j) (hj : j < l.length)
    (hlen : j + 1 < (List.insertIdx n x l).length) :
    (List.insertIdx n x l)[j + 1] = l[j] := by
  obtain ⟨d, rfl⟩ : ∃ d, j = n + d := ⟨j - n, by omega⟩
  exact List.getElem_insertIdx_add_succ l x n d hj

theorem perm_cons_middle {α : Type} (a : α) (l1 m l2 : List α) :
    (l1 ++ (a :: m) ++ l2).Perm (a :: (l1 ++ m ++ l2)) := by
  have h1 : l1 ++ (a :: m) ++ l2 = l1 ++ a :: (m ++ l2) := by simp
  have h2 : a :: (l1 ++ m ++ l2) = a :: (l1 ++ (m ++ l2)) := by simp
  rw [h1, h2]
  exact List.perm_middle

theorem perm_extract {α : Type} (l1 m l2 : List α) :
    (l1 ++ m ++ l2).Perm (m ++ (l1 ++ l2)) := by
  have h1 : l1 ++ m ++ l2 = l1 ++ (m ++ l2) := by simp
  rw [h1]
  exact List.perm_append_comm_assoc l1 m l2

theorem wfNode_interior_of (s bm cap : Nat) (ch : List Node)
    (hshape : shapeOk bm cap ch) (hd : s + 5 < 64)
    (hch : ∀ b, b < 32 → bm.testBit b →
      ∃ hlt : childIdx bm b < ch.length,
        wfNode (s + 5) ch[childIdx bm b] ∧
        ∀ e ∈ entries ch[childIdx bm b], childBitNumber e.1 s = b) :
    wfNode s (.interior bm cap ch) := by
  rw [wfNode_interior]
  refine ⟨hshape, hd, ?_⟩
  intro b hb ht
  obtain ⟨hlt, h1, h2⟩ := hch b hb ht
  refine ⟨hlt, ?_, ?_⟩
  · rw [List.get_eq_getElem]; exact h1
  · rw [List.get_eq_getElem]; exact h2

/-- The empty fresh interior node created by `insert`'s split case is
well-formed at its shift provided the shift is still admissible. -/
theorem wfNode_fresh (s cap : Nat) (hcap : cap ≤ 32) (hd : s + 5 < 64) :
    wfNode s (.interior 0 cap []) := by
  apply wfNode_interior_of
  · exact ⟨by norm_num, by simp [popcountBelow_zero], by simp, hcap⟩
  · exact hd
  · intro b hb ht
    rw [Nat.zero_testBit] at ht
    cases ht

theorem addChildN_fresh (cap b : Nat) (c : Node) (hcap : 0 < cap) :
    addChildN 0 cap [] b c = .interior (addBit 0 b) cap [c] := by
  unfold addChildN
  rw [childIdx, popcountBelow_zero, popcountBelow_zero, if_pos hcap,
    List.insertIdx_zero]

/-- `addChild` on a well-formed node with a new bit: the result is
well-formed provided the child is well-formed one level deeper and all its
entries route to the new bit. -/
theorem addChildN_wf {s bm cap : Nat} {ch : List Node}
    (hwf : wfNode s (.interior bm cap ch)) {b : Nat} (hb : b < 32)
    (ht : ¬ bm.testBit b) {c : Node} (hcwf : wfNode (s + 5) c)
    (hcsl : ∀ e ∈ entries c, childBitNumber e.1 s = b) :
    wfNode s (addChildN bm cap ch b c) := by
  obtain ⟨hb32, hpop, hlc, hc32⟩ := wf_shape hwf
  have hidxle : childIdx bm b ≤ ch.length := childIdx_le_length hwf hb
  have hlen : (ch.insertIdx (childIdx bm b) c).length = ch.length + 1 :=
    List.length_insertIdx _ _ hidxle
  have hpoplt : popcountBelow bm 32 < 32 := popcountBelow_lt_of_not_testBit hb ht
  unfold addChildN
  apply wfNode_interior_of
  · refine ⟨addBit_lt hb32 hb, ?_, ?_, ?_⟩
    · rw [popcountBelow_addBit ht 32, if_pos hb, hpop, hlen]
    · rw [hlen]
      by_cases hg : popcountBelow bm 32 < cap
      · rw [if_pos hg]; omega
      · rw [if_neg hg]; omega
    · by_cases hg : popcountBelow bm 32 < cap
      · rw [if_pos hg]; exact hc32
      · rw [if_neg hg]; omega
  · exact wf_depth hwf
  · intro b2 hb2 ht2
    rw [testBit_addBit] at ht2
    by_cases hbb : b2 = b
    · subst hbb
      have hidx : childIdx (addBit bm b2) b2 = childIdx bm b2 := by
        unfold childIdx
        rw [popcountBelow_addBit ht b2, if_neg (lt_irrefl b2)]
        omega
      rw [hidx]
      refine ⟨by omega, ?_, ?_⟩
      · rw [List.getElem_insertIdx_self ch c _ hidxle]
        exact hcwf
      · rw [List.getElem_insertIdx_self ch c _ hidxle]
        exact hcsl
    · have htb : bm.testBit b2 := by simpa [hbb] using ht2
      obtain ⟨hltold, hwold, hsold⟩ := wf_child_of_bit hwf hb2 htb
      by_cases horder : b2 < b
      · have hidx : childIdx (addBit bm b) b2 = childIdx bm b2 := by
          unfold childIdx
          rw [popcountBelow_addBit ht b2, if_neg (by omega)]
          omega
        have hjlt : childIdx bm b2 < childIdx bm b := childIdx_strict htb horder
        rw [hidx]
        refine ⟨by omega, ?_, ?_⟩
        · rw [List.getElem_insertIdx_of_lt ch c _ _ hjlt hltold]
          exact hwold
        · rw [List.getElem_insertIdx_of_lt ch c _ _ hjlt hltold]
          exact hsold
      · have horder2 : b < b2 := by omega
        have hidx : childIdx (addBit bm b) b2 = childIdx bm b2 + 1 := by
          unfold childIdx
          rw [popcountBelow_addBit ht b2, if_pos horder2]
        have hjge : childIdx bm b ≤ childIdx bm b2 := by
          have h1 : popcountBelow bm (b + 1) = popcountBelow bm b := by
            rw [popcountBelow_succ, if_neg ht]
            omega
          have h2 := popcountBelow_mono bm (show b + 1 ≤ b2 from by omega)
          unfold childIdx
          omega
        rw [hidx]
        refine ⟨by omega, ?_, ?_⟩
        · rw [getElem_insertIdx_ge ch c _ _ hjge hltold]
          exact hwold
        · rw [getElem_insertIdx_ge ch c _ _ hjge hltold]
          exact hsold

/-- Entries of `addChild`'s child list: a permutation that puts the new
child's entries in front. -/
theorem entriesL_insertIdx_perm (ch : List Node) (idx : Nat) (c : Node)
    (h : idx ≤ ch.length) :
    (entriesL (ch.insertIdx idx c)).Perm (entries c ++ entriesL ch) := by
  rw [entriesL_insertIdx ch idx c h]
  have h2 : entriesL ch = entriesL (ch.take idx) ++ entriesL (ch.drop idx) := by
    rw [← entriesL_append, List.take_append_drop]
  rw [h2]
  exact perm_extract _ _ _

/-! ### Insert: the unfolding equations -/

theorem insertN_leaf (a b : Nat) (c : Int) (h k : Nat) (v : Int) (s : Nat) :
    insertN (.leaf a b c) h k v s = none := by
  rw [insertN]

theorem insertN_no_depth {s : Nat} (hs : ¬ s + 5 < 64) (bm cap : Nat)
    (ch : List Node) (h k : Nat) (v : Int) :
    insertN (.interior bm cap ch) h k v s = none := by
  rw [insertN, dif_neg hs]

theorem insertN_some_depth {n : Node} {h k : Nat} {v : Int} {s : Nat} {r : Node}
    (hins : insertN n h k v s = some r) : s + 5 < 64 := by
  by_contra hs
  cases n with
  | leaf a b c => rw [insertN_leaf] at hins; cases hins
  | interior bm cap ch => rw [insertN_no_depth hs] at hins; cases hins

theorem insertN_eq {s : Nat} (hs : s + 5 < 64) (bm cap : Nat) (ch : List Node)
    (h k : Nat) (v : Int) :
    insertN (.interior bm cap ch) h k v s =
      if bm.testBit (childBitNumber h s) then
        match ch[childIdx bm (childBitNumber h s)]? with
        | none => none
        | some (.leaf lh lk lv) =>
          if lh = h ∧ lk = k then
            some (.interior bm cap
              (ch.set (childIdx bm (childBitNumber h s)) (.leaf lh lk v)))
          else
            match insertN (addChildN 0 (newNodeCapacity s) []
                (childBitNumber lh (s + 5)) (.leaf lh lk lv)) h k v (s + 5) with
            | none => none
            | some n1 =>
              some (.interior bm cap (ch.set (childIdx bm (childBitNumber h s)) n1))
        | some (.interior b2 c2 ch2) =>
          match insertN (.interior b2 c2 ch2) h k v (s + 5) with
          | none => none
          | some n1 =>
            some (.interior bm cap (ch.set (childIdx bm (childBitNumber h s)) n1))
      else
        some (addChildN bm cap ch (childBitNumber h s) (.leaf h k v)) := by
  rw [insertN, dif_pos hs]

theorem insertN_empty_slot {s : Nat} (hs : s + 5 < 64) {bm : Nat} (cap : Nat)
    {ch : List Node} {h : Nat} (k : Nat) (v : Int)
    (ht : ¬ bm.testBit (childBitNumber h s)) :
    insertN (.interior bm cap ch) h k v s
      = some (addChildN bm cap ch (childBitNumber h s) (.leaf h k v)) := by
  rw [insertN_eq hs, if_neg ht]

theorem insertN_oob {s : Nat} (hs : s + 5 < 64) {bm : Nat} (cap : Nat)
    {ch : List Node} {h : Nat} (k : Nat) (v : Int)
    (ht : bm.testBit (childBitNumber h s))
    (hnone : ch[childIdx bm (childBitNumber h s)]? = none) :
    insertN (.interior bm cap ch) h k v s = none := by
  rw [insertN_eq hs, if_pos ht, hnone]

theorem insertN_overwrite {s : Nat} (hs : s + 5 < 64) {bm : Nat} (cap : Nat)
    {ch : List Node} {h k : Nat} (v : Int) {lh lk : Nat} {lv : Int}
    (ht : bm.testBit (childBitNumber h s))
    (hsome : ch[childIdx bm (childBitNumber h s)]? = some (.leaf lh lk lv))
    (hm : lh = h ∧ lk = k) :
    insertN (.interior bm cap ch) h k v s
      = some (.interior bm cap
          (ch.set (childIdx bm (childBitNumber h s)) (.leaf lh lk v))) := by
  rw [insertN_eq hs, if_pos ht, hsome]
  dsimp only
  rw [if_pos hm]

theorem insertN_split {s : Nat} (hs : s + 5 < 64) {bm : Nat} (cap : Nat)
    {ch : List Node} {h k : Nat} (v : Int) {lh lk : Nat} {lv : Int}
    (ht : bm.testBit (childBitNumber h s))
    (hsome : ch[childIdx bm (childBitNumber h s)]? = some (.leaf lh lk lv))
    (hm : ¬(lh = h ∧ lk = k)) :
    insertN (.interior bm cap ch) h k v s
      = match insertN (addChildN 0 (newNodeCapacity s) []
            (childBitNumber lh (s + 5)) (.leaf lh lk lv)) h k v (s + 5) with
        | none => none
        | some n1 =>
          some (.interior bm cap (ch.set (childIdx bm (childBitNumber h s)) n1)) := by
  rw [insertN_eq hs, if_pos ht, hsome]
  dsimp only
  rw [if_neg hm]

theorem insertN_recurse {s : Nat} (hs : s + 5 < 64) {bm : Nat} (cap : Nat)
    {ch : List Node} {h k : Nat} (v : Int) {b2 c2 : Nat} {ch2 : List Node}
    (ht : bm.testBit (childBitNumber h s))
    (hsome : ch[childIdx bm (childBitNumber h s)]? = some (.interior b2 c2 ch2)) :
    insertN (.interior bm cap ch) h k v s
      = match insertN (.interior b2 c2 ch2) h k v (s + 5) with
        | none => none
        | some n1 =>
          some (.interior bm cap (ch.set (childIdx bm (childBitNumber h s)) n1)) := by
  rw [insertN_eq hs, if_pos ht, hsome]

/-! ### Filtering the target entry -/

theorem keep_entry_at_ne_idx {s bm cap : Nat} {ch : List Node}
    (hwf : wfNode s (.interior bm cap ch)) {i : Nat} (hi : i < ch.length)
    {h : Nat} (hne : i ≠ childIdx bm (childBitNumber h s))
    {e : Nat × Nat × Int} (he : e ∈ entries ch[i]) (k : Nat) :
    keepEntry h k e = true := by
  obtain ⟨b', hb', ht', hidx', hsl'⟩ := wf_entry_at_idx hwf hi he
  rw [keepEntry_true_iff]
  rintro ⟨h1, -⟩
  rw [h1] at hsl'
  exact hne (by rw [← hidx', hsl'])

theorem filter_keep_take {s bm cap : Nat} {ch : List Node} {h : Nat} (k : Nat)
    (hwf : wfNode s (.interior bm cap ch)) :
    (entriesL (ch.take (childIdx bm (childBitNumber h s)))).filter (keepEntry h k)
      = entriesL (ch.take (childIdx bm (childBitNumber h s))) := by
  apply List.filter_eq_self.mpr
  intro e he
  obtain ⟨i, hi, hei⟩ := mem_entriesL.mp he
  have hii : i < ch.length := by
    rw [List.length_take] at hi
    omega
  have hlti : i < childIdx bm (childBitNumber h s) := by
    rw [List.length_take] at hi
    omega
  have hgeq : (ch.take (childIdx bm (childBitNumber h s)))[i] = ch[i] :=
    List.getElem_take ch
  rw [hgeq] at hei
  exact keep_entry_at_ne_idx hwf hii (by omega) hei k

theorem filter_keep_drop {s bm cap : Nat} {ch : List Node} {h : Nat} (k : Nat)
    (hwf : wfNode s (.interior bm cap ch)) :
    (entriesL (ch.drop (childIdx bm (childBitNumber h s) + 1))).filter (keepEntry h k)
      = entriesL (ch.drop (childIdx bm (childBitNumber h s) + 1)) := by
  apply List.filter_eq_self.mpr
  intro e he
  obtain ⟨i, hi, hei⟩ := mem_entriesL.mp he
  have hii : childIdx bm (childBitNumber h s) + 1 + i < ch.length := by
    rw [List.length_drop] at hi
    omega
  have hgeq : (ch.drop (childIdx bm (childBitNumber h s) + 1))[i]
      = ch[childIdx bm (childBitNumber h s) + 1 + i] := List.getElem_drop ch
  rw [hgeq] at hei
  exact keep_entry_at_ne_idx hwf hii (by omega) hei k

/-- When the target's slot is empty, no stored entry matches the target, so
the filter is the identity. -/
theorem filter_keep_all {s bm cap : Nat} {ch : List Node} {h : Nat} (k : Nat)
    (hwf : wfNode s (.interior bm cap ch))
    (ht : ¬ bm.testBit (childBitNumber h s)) :
    (entriesL ch).filter (keepEntry h k) = entriesL ch := by
  apply List.filter_eq_self.mpr
  intro e he
  rw [keepEntry_true_iff]
  rintro ⟨h1, -⟩
  have := (wf_entry_mem hwf he).1
  rw [h1] at this
  exact ht this

theorem filter_keep_decomp {s bm cap : Nat} {ch : List Node} {h : Nat} (k : Nat)
    (hwf : wfNode s (.interior bm cap ch))
    (hlt : childIdx bm (childBitNumber h s) < ch.length) :
    (entriesL ch).filter (keepEntry h k)
      = entriesL (ch.take (childIdx bm (childBitNumber h s)))
        ++ (entries ch[childIdx bm (childBitNumber h s)]).filter (keepEntry h k)
        ++ entriesL (ch.drop (childIdx bm (childBitNumber h s) + 1)) := by
  conv_lhs => rw [entriesL_decomp ch _ hlt]
  rw [List.filter_append, List.filter_append, filter_keep_take k hwf,
    filter_keep_drop k hwf]

/-- Replacing the child at the target's physical index preserves
well-formedness when the new child is well-formed one level deeper and its
entries route to the same bit. -/
theorem setChild_wf {s bm cap : Nat} {ch : List Node}
    (hwf : wfNode s (.interior bm cap ch)) {b : Nat} (hb : b < 32)
    (ht : bm.testBit b) {c : Node} (hcwf : wfNode (s + 5) c)
    (hcsl : ∀ e ∈ entries c, childBitNumber e.1 s = b) :
    wfNode s (.interior bm cap (ch.set (childIdx bm b) c)) := by
  obtain ⟨hb32, hpop, hlc, hc32⟩ := wf_shape hwf
  apply wfNode_interior_of
  · exact ⟨hb32, by rw [List.length_set]; exact hpop, by rw [List.length_set]; exact hlc,
      hc32⟩
  · exact wf_depth hwf
  · intro b2 hb2 ht2
    obtain ⟨hltold, hwold, hsold⟩ := wf_child_of_bit hwf hb2 ht2
    by_cases hbb : b2 = b
    · subst hbb
      refine ⟨by rw [List.length_set]; exact hltold, ?_, ?_⟩
      · rw [List.getElem_set_self]; exact hcwf
      · rw [List.getElem_set_self]; exact hcsl
    · have hne := childIdx_ne ht ht2 (Ne.symm hbb)
      refine ⟨by rw [List.length_set]; exact hltold, ?_, ?_⟩
      · rw [List.getElem_set_ne hne]; exact hwold
      · rw [List.getElem_set_ne hne]; exact hsold

/-- Replacing the target's child by one whose entries are the old ones with
the target entry replaced yields the global replaced-entry permutation. -/
theorem insert_set_perm {s bm cap : Nat} {ch : List Node} {h k : Nat} {v : Int}
    (hwf : wfNode s (.interior bm cap ch))
    (hlt : childIdx bm (childBitNumber h s) < ch.length) {c : Node}
    (hc : (entries c).Perm ((h, k, v) ::
      (entries ch[childIdx bm (childBitNumber h s)]).filter (keepEntry h k))) :
    (entriesL (ch.set (childIdx bm (childBitNumber h s)) c)).Perm
      ((h, k, v) :: (entriesL ch).filter (keepEntry h k)) := by
  rw [entriesL_set ch _ c hlt, filter_keep_decomp k hwf hlt]
  calc entriesL (ch.take (childIdx bm (childBitNumber h s))) ++ entries c
        ++ entriesL (ch.drop (childIdx bm (childBitNumber h s) + 1))
      |>.Perm (entriesL (ch.take (childIdx bm (childBitNumber h s)))
        ++ ((h, k, v) ::
          (entries ch[childIdx bm (childBitNumber h s)]).filter (keepEntry h k))
        ++ entriesL (ch.drop (childIdx bm (childBitNumber h s) + 1))) :=
    (hc.append_left _).append_right _
  _ |>.Perm ((h, k, v) :: (entriesL (ch.take (childIdx bm (childBitNumber h s)))
        ++ (entries ch[childIdx bm (childBitNumber h s)]).filter (keepEntry h k)
        ++ entriesL (ch.drop (childIdx bm (childBitNumber h s) + 1)))) :=
    perm_cons_middle _ _ _ _

/-! ### The master lemma for `insert` -/

/-- `InteriorNode::insert`, when it completes, keeps the subtree
well-formed, leaves its entries a permutation of the old ones with the
target (hash, key) entry replaced by the new value (added if absent), and
only grows the node's own capacity when it was completely full. -/
theorem insertN_spec :
    ∀ (m : Nat), ∀ (s : Nat), 64 ≤ m + s →
      ∀ (bm cap : Nat) (ch : List Node) (h k : Nat) (v : Int) (n2 : Node),
      wfNode s (.interior bm cap ch) →
      insertN (.interior bm cap ch) h k v s = some n2 →
      ∃ bm2 cap2 ch2, n2 = .interior bm2 cap2 ch2 ∧
        wfNode s n2 ∧
        (entriesL ch2).Perm ((h, k, v) :: (entriesL ch).filter (keepEntry h k)) ∧
        (cap = 32 → cap2 = 32) := by
  intro m
  induction m with
  | zero =>
    intro s hm bm cap ch h k v n2 hwf hins
    have := wf_depth hwf
    omega
  | succ m ih =>
    intro s hm bm cap ch h k v n2 hwf hins
    have hs5 : s + 5 < 64 := wf_depth hwf
    by_cases ht : bm.testBit (childBitNumber h s)
    · have hb32 : childBitNumber h s < 32 := childBitNumber_lt h s
      have hlt : childIdx bm (childBitNumber h s) < ch.length := by
        have h1 := childIdx_lt_popcount hb32 ht
        rw [(wf_shape hwf).2.1] at h1
        exact h1
      rcases hchild : ch[childIdx bm (childBitNumber h s)] with
        ⟨lh, lk, lv⟩ | ⟨b2, c2, ch2⟩
      · have hsome : ch[childIdx bm (childBitNumber h s)]? = some (.leaf lh lk lv) := by
          rw [List.getElem?_eq_getElem hlt, hchild]
        have hlhslice : childBitNumber lh s = childBitNumber h s := by
          have hmem : ((lh : Nat), (lk : Nat), (lv : Int))
              ∈ entries ch[childIdx bm (childBitNumber h s)] := by
            rw [hchild, entries_leaf]; simp
          exact wf_slice_at_target hwf ht hlt hmem
        by_cases hm2 : lh = h ∧ lk = k
        · -- overwrite in place
          rw [insertN_overwrite hs5 cap v ht hsome hm2] at hins
          injection hins with hins
          subst hins
          refine ⟨_, _, _, rfl, ?_, ?_, fun hc => hc⟩
          · exact setChild_wf hwf hb32 ht (wfNode_leaf _ _ _ _)
              (by rw [entries_leaf]
                  intro e he
                  simp only [List.mem_singleton] at he
                  subst he
                  exact hlhslice)
          · apply insert_set_perm hwf hlt
            rw [hchild, entries_leaf, entries_leaf]
            have hkeep : keepEntry h k (lh, lk, lv) = false := by
              rw [← keepEntry_false_iff h k (lh, lk, lv)] at hm2
              exact hm2
            rw [List.filter_cons, hkeep]
            obtain ⟨he1, he2⟩ := hm2
            subst he1; subst he2
            simp
        · -- split: interpose a fresh interior node
          rw [insertN_split hs5 cap v ht hsome hm2] at hins
          rcases hrec : insertN (addChildN 0 (newNodeCapacity s) []
              (childBitNumber lh (s + 5)) (.leaf lh lk lv)) h k v (s + 5) with - | n1
          · rw [hrec] at hins; cases hins
          · rw [hrec] at hins
            injection hins with hins
            subst hins
            have hs10 : s + 5 + 5 < 64 := insertN_some_depth hrec
            have hfresh := addChildN_fresh (newNodeCapacity s)
              (childBitNumber lh (s + 5)) (.leaf lh lk lv) (newNodeCapacity_pos s)
            have hwfn0 : wfNode (s + 5) (addChildN 0 (newNodeCapacity s) []
                (childBitNumber lh (s + 5)) (.leaf lh lk lv)) := by
              apply addChildN_wf (wfNode_fresh (s + 5) (newNodeCapacity s)
                  (newNodeCapacity_le s) hs10)
                (childBitNumber_lt lh (s + 5))
                (by rw [Nat.zero_testBit]; exact Bool.false_ne_true)
                (wfNode_leaf _ _ _ _)
              rw [entries_leaf]
              intro e he
              simp only [List.mem_singleton] at he
              subst he
              rfl
            rw [hfresh] at hrec hwfn0
            obtain ⟨bm3, cap3, ch3, hn1, hwfn1, hperm1, -⟩ :=
              ih (s + 5) (by omega) _ _ _ h k v n1 hwfn0 hrec
            subst hn1
            have hentries3 : (entriesL ch3).Perm [(h, k, v), (lh, lk, lv)] := by
              have he0 : entriesL [Node.leaf lh lk lv] = [(lh, lk, lv)] := by
                rw [entriesL_cons, entries_leaf, entriesL_nil]
                simp
              rw [he0] at hperm1
              have hkeep : keepEntry h k (lh, lk, lv) = true := by
                rw [keepEntry_true_iff]
                exact fun hc => hm2 ⟨hc.1, hc.2⟩
              rw [List.filter_cons, hkeep] at hperm1
              simpa using hperm1
            refine ⟨_, _, _, rfl, ?_, ?_, fun hc => hc⟩
            · apply setChild_wf hwf hb32 ht hwfn1
              rw [entries_interior]
              intro e he
              have hmem := hentries3.mem_iff.mp he
              simp only [List.mem_cons, List.mem_singleton, List.not_mem_nil,
                or_false] at hmem
              rcases hmem with he2 | he2
              · rw [he2]
              · subst he2
                exact hlhslice
            · apply insert_set_perm hwf hlt
              rw [entries_interior, hchild, entries_leaf]
              have hkeep : keepEntry h k (lh, lk, lv) = true := by
                rw [keepEntry_true_iff]
                exact fun hc => hm2 ⟨hc.1, hc.2⟩
              rw [List.filter_cons, hkeep]
              simpa using hentries3
      · -- recurse into an interior child
        have hsome : ch[childIdx bm (childBitNumber h s)]? = some (.interior b2 c2 ch2) := by
          rw [List.getElem?_eq_getElem hlt, hchild]
        have hwold : wfNode (s + 5) (.interior b2 c2 ch2) := by
          have := wf_child_at_idx hwf hlt
          rw [hchild] at this
          exact this
        rw [insertN_recurse hs5 cap v ht hsome] at hins
        rcases hrec : insertN (.interior b2 c2 ch2) h k v (s + 5) with - | n1
        · rw [hrec] at hins; cases hins
        · rw [hrec] at hins
          injection hins with hins
          subst hins
          obtain ⟨bm3, cap3, ch3, hn1, hwfn1, hperm1, -⟩ :=
            ih (s + 5) (by omega) _ _ _ h k v n1 hwold hrec
          subst hn1
          refine ⟨_, _, _, rfl, ?_, ?_, fun hc => hc⟩
          · apply setChild_wf hwf hb32 ht hwfn1
            rw [entries_interior]
            intro e he
            have hmem := hperm1.mem_iff.mp he
            rw [List.mem_cons] at hmem
            rcases hmem with he2 | he2
            · rw [he2]
            · have he3 : e ∈ entries ch[childIdx bm (childBitNumber h s)] := by
                rw [hchild, entries_interior]
                exact List.mem_of_mem_filter he2
              exact wf_slice_at_target hwf ht hlt he3
          · apply insert_set_perm hwf hlt
            rw [hchild, entries_interior]
            exact hperm1
    · -- empty slot: add a fresh leaf
      rw [insertN_empty_slot hs5 cap k v ht] at hins
      injection hins with hins
      subst hins
      have hb32 : childBitNumber h s < 32 := childBitNumber_lt h s
      have hidxle : childIdx bm (childBitNumber h s) ≤ ch.length :=
        childIdx_le_length hwf hb32
      refine ⟨_, _, _, rfl, ?_, ?_, ?_⟩
      · apply addChildN_wf hwf hb32 ht (wfNode_leaf _ _ _ _)
        rw [entries_leaf]
        intro e he
        simp only [List.mem_singleton] at he
        subst he
        rfl
      · rw [filter_keep_all k hwf ht]
        have := entriesL_insertIdx_perm ch (childIdx bm (childBitNumber h s))
          (.leaf h k v) hidxle
        rw [entries_leaf] at this
        simpa using this
      · intro hc
        subst hc
        have hp : popcountBelow bm 32 < 32 := popcountBelow_lt_of_not_testBit hb32 ht
        rw [if_pos hp]

/-! ### The frame lemma for overwriting inserts -/

theorem stripVals_leaf (h k : Nat) (v : Int) :
    stripVals (.leaf h k v) = .leaf h k 0 := by rw [stripVals]

theorem stripVals_interior (bm cap : Nat) (ch : List Node) :
    stripVals (.interior bm cap ch) = .interior bm cap (stripValsL ch) := by
  rw [stripVals]

theorem keep_of_mem_take {s bm cap : Nat} {ch : List Node} {h : Nat} (k : Nat)
    (hwf : wfNode s (.interior bm cap ch)) {e : Nat × Nat × Int}
    (he : e ∈ entriesL (ch.take (childIdx bm (childBitNumber h s)))) :
    keepEntry h k e = true := by
  obtain ⟨i, hi, hei⟩ := mem_entriesL.mp he
  have hii : i < ch.length := by
    rw [List.length_take] at hi
    omega
  have hlti : i < childIdx bm (childBitNumber h s) := by
    rw [List.length_take] at hi
    omega
  have hgeq : (ch.take (childIdx bm (childBitNumber h s)))[i] = ch[i] :=
    List.getElem_take ch
  rw [hgeq] at hei
  exact keep_entry_at_ne_idx hwf hii (by omega) hei k

theorem keep_of_mem_drop {s bm cap : Nat} {ch : List Node} {h : Nat} (k : Nat)
    (hwf : wfNode s (.interior bm cap ch)) {e : Nat × Nat × Int}
    (he : e ∈ entriesL (ch.drop (childIdx bm (childBitNumber h s) + 1))) :
    keepEntry h k e = true := by
  obtain ⟨i, hi, hei⟩ := mem_entriesL.mp he
  have hii : childIdx bm (childBitNumber h s) + 1 + i < ch.length := by
    rw [List.length_drop] at hi
    omega
  have hgeq : (ch.drop (childIdx bm (childBitNumber h s) + 1))[i]
      = ch[childIdx bm (childBitNumber h s) + 1 + i] := List.getElem_drop ch
  rw [hgeq] at hei
  exact keep_entry_at_ne_idx hwf hii (by omega) hei k

/-- When the key (with its hash) is already stored, `insert` completes
without growing or reshaping anything: the bitmap, capacity and child
arrangement of every node are unchanged (`stripVals` equal), and the entry
list is unchanged except that the target entry now carries the new
value. -/
theorem insertN_frame :
    ∀ (m : Nat), ∀ (s : Nat), 64 ≤ m + s →
      ∀ (bm cap : Nat) (ch : List Node) (h k : Nat) (v w : Int),
      wfNode s (.interior bm cap ch) →
      (h, k, w) ∈ entriesL ch →
      ∃ ch2, insertN (.interior bm cap ch) h k v s = some (.interior bm cap ch2) ∧
        stripValsL ch2 = stripValsL ch ∧
        entriesL ch2 = (entriesL ch).map
          (fun e => if e.1 = h ∧ e.2.1 = k then (h, k, v) else e) := by
  intro m
  induction m with
  | zero =>
    intro s hm bm cap ch h k v w hwf hmem
    have := wf_depth hwf
    omega
  | succ m ih =>
    intro s hm bm cap ch h k v w hwf hmem
    have hs5 : s + 5 < 64 := wf_depth hwf
    obtain ⟨ht, hlt, hein⟩ := wf_entry_mem hwf hmem
    dsimp only at ht hlt hein
    have hb32 : childBitNumber h s < 32 := childBitNumber_lt h s
    have hmapdec : (entriesL ch).map
        (fun e => if e.1 = h ∧ e.2.1 = k then (h, k, v) else e)
        = entriesL (ch.take (childIdx bm (childBitNumber h s)))
          ++ (entries ch[childIdx bm (childBitNumber h s)]).map
              (fun e => if e.1 = h ∧ e.2.1 = k then (h, k, v) else e)
          ++ entriesL (ch.drop (childIdx bm (childBitNumber h s) + 1)) := by
      conv_lhs => rw [entriesL_decomp ch _ hlt]
      rw [List.map_append, List.map_append]
      congr 1
      · congr 1
        have h1 := @List.map_congr_left _
          (entriesL (ch.take (childIdx bm (childBitNumber h s)))) _
          (fun e : Nat × Nat × Int => if e.1 = h ∧ e.2.1 = k then (h, k, v) else e) id
          (fun e he => by
            have hk := keep_of_mem_take k hwf he
            rw [keepEntry_true_iff] at hk
            simp only [id_eq]
            rw [if_neg hk])
        rw [List.map_id] at h1
        exact h1
      · have h1 := @List.map_congr_left _
          (entriesL (ch.drop (childIdx bm (childBitNumber h s) + 1))) _
          (fun e : Nat × Nat × Int => if e.1 = h ∧ e.2.1 = k then (h, k, v) else e) id
          (fun e he => by
            have hk := keep_of_mem_drop k hwf he
            rw [keepEntry_true_iff] at hk
            simp only [id_eq]
            rw [if_neg hk])
        rw [List.map_id] at h1
        exact h1
    rcases hchild : ch[childIdx bm (childBitNumber h s)] with
      ⟨lh, lk, lv⟩ | ⟨b2, c2, ch2⟩
    · rw [hchild] at hein
      rw [entries_leaf] at hein
      simp only [List.mem_singleton, Prod.mk.injEq] at hein
      obtain ⟨he1, he2, -⟩ := hein
      have hsome : ch[childIdx bm (childBitNumber h s)]? = some (.leaf lh lk lv) := by
        rw [List.getElem?_eq_getElem hlt, hchild]
      refine ⟨ch.set (childIdx bm (childBitNumber h s)) (.leaf lh lk v),
        insertN_overwrite hs5 cap v ht hsome ⟨he1.symm, he2.symm⟩, ?_, ?_⟩
      · apply stripValsL_set_get ch _ hlt
        rw [hchild, stripVals_leaf, stripVals_leaf]
      · rw [entriesL_set ch _ _ hlt, hmapdec, hchild, entries_leaf, entries_leaf]
        subst he1; subst he2
        simp
    · rw [hchild] at hein
      rw [entries_interior] at hein
      have hsome : ch[childIdx bm (childBitNumber h s)]?
          = some (.interior b2 c2 ch2) := by
        rw [List.getElem?_eq_getElem hlt, hchild]
      have hwold : wfNode (s + 5) (.interior b2 c2 ch2) := by
        have := wf_child_at_idx hwf hlt
        rw [hchild] at this
        exact this
      obtain ⟨ch3, hrec, hstrip, hmap⟩ :=
        ih (s + 5) (by omega) b2 c2 ch2 h k v w hwold hein
      refine ⟨ch.set (childIdx bm (childBitNumber h s)) (.interior b2 c2 ch3), ?_, ?_, ?_⟩
      · rw [insertN_recurse hs5 cap v ht hsome, hrec]
      · apply stripValsL_set_get ch _ hlt
        rw [hchild, stripVals_interior, stripVals_interior, hstrip]
      · rw [entriesL_set ch _ _ hlt, hmapdec, hchild, entries_interior,
          entries_interior, hmap]

/-! ### Remove: the unfolding equations -/

theorem removeN_leaf (a b : Nat) (c : Int) (h k s : Nat) :
    removeN (.leaf a b c) h k s = none := by
  rw [removeN]

theorem removeN_no_depth {s : Nat} (hs : ¬ s + 5 < 64) (bm cap : Nat)
    (ch : List Node) (h k : Nat) :
    removeN (.interior bm cap ch) h k s = none := by
  rw [removeN, dif_neg hs]

theorem removeN_eq {s : Nat} (hs : s + 5 < 64) (bm cap : Nat) (ch : List Node)
    (h k : Nat) :
    removeN (.interior bm cap ch) h k s =
      (if bm.testBit (childBitNumber h s) then
        match ch[childIdx bm (childBitNumber h s)]? with
        | none => none
        | some (.leaf lh lk _) =>
          if lh = h ∧ lk = k then
            some (true, .interior (removeBit bm (childBitNumber h s)) cap
              (ch.eraseIdx (childIdx bm (childBitNumber h s))))
          else
            some (false, .interior bm cap ch)
        | some (.interior b2 c2 ch2) =>
          match removeN (.interior b2 c2 ch2) h k (s + 5) with
          | none => none
          | some (false, _) => some (false, .interior bm cap ch)
          | some (true, .leaf _ _ _) => none
          | some (true, .interior b3 c3 ch3) =>
            if b3 = 0 then
              some (true, .interior (removeBit bm (childBitNumber h s)) cap
                (ch.eraseIdx (childIdx bm (childBitNumber h s))))
            else
              some (true, .interior bm cap
                (ch.set (childIdx bm (childBitNumber h s)) (.interior b3 c3 ch3)))
      else
        some (false, .interior bm cap ch)) := by
  rw [removeN, dif_pos hs]

theorem removeN_no_bit {s : Nat} (hs : s + 5 < 64) {bm : Nat} (cap : Nat)
    (ch : List Node) {h : Nat} (k : Nat)
    (ht : ¬ bm.testBit (childBitNumber h s)) :
    removeN (.interior bm cap ch) h k s = some (false, .interior bm cap ch) := by
  rw [removeN_eq hs, if_neg ht]

theorem removeN_hit {s : Nat} (hs : s + 5 < 64) {bm : Nat} (cap : Nat)
    {ch : List Node} {h k lh lk : Nat} {lv : Int}
    (ht : bm.testBit (childBitNumber h s))
    (hsome : ch[childIdx bm (childBitNumber h s)]? = some (.leaf lh lk lv))
    (hm : lh = h ∧ lk = k) :
    removeN (.interior bm cap ch) h k s
      = some (true, .interior (removeBit bm (childBitNumber h s)) cap
          (ch.eraseIdx (childIdx bm (childBitNumber h s)))) := by
  rw [removeN_eq hs, if_pos ht, hsome]
  dsimp only
  rw [if_pos hm]

theorem removeN_miss {s : Nat} (hs : s + 5 < 64) {bm : Nat} (cap : Nat)
    {ch : List Node} {h k lh lk : Nat} {lv : Int}
    (ht : bm.testBit (childBitNumber h s))
    (hsome : ch[childIdx bm (childBitNumber h s)]? = some (.leaf lh lk lv))
    (hm : ¬(lh = h ∧ lk = k)) :
    removeN (.interior bm cap ch) h k s = some (false, .interior bm cap ch) := by
  rw [removeN_eq hs, if_pos ht, hsome]
  dsimp only
  rw [if_neg hm]

theorem removeN_rec {s : Nat} (hs : s + 5 < 64) {bm : Nat} (cap : Nat)
    {ch : List Node} {h k : Nat} {b2 c2 : Nat} {ch2 : List Node}
    (ht : bm.testBit (childBitNumber h s))
    (hsome : ch[childIdx bm (childBitNumber h s)]? = some (.interior b2 c2 ch2)) :
    removeN (.interior bm cap ch) h k s
      = match removeN (.interior b2 c2 ch2) h k (s + 5) with
        | none => none
        | some (false, _) => some (false, .interior bm cap ch)
        | some (true, .leaf _ _ _) => none
        | some (true, .interior b3 c3 ch3) =>
          if b3 = 0 then
            some (true, .interior (removeBit bm (childBitNumber h s)) cap
              (ch.eraseIdx (childIdx bm (childBitNumber h s))))
          else
            some (true, .interior bm cap
              (ch.set (childIdx bm (childBitNumber h s)) (.interior b3 c3 ch3))) := by
  rw [removeN_eq hs, if_pos ht, hsome]

/-- Removing the child slot at a set bit preserves well-formedness. -/
theorem eraseChild_wf {s bm cap : Nat} {ch : List Node}
    (hwf : wfNode s (.interior bm cap ch)) {b : Nat} (hb : b < 32)
    (ht : bm.testBit b) (hlt : childIdx bm b < ch.length) :
    wfNode s (.interior (removeBit bm b) cap (ch.eraseIdx (childIdx bm b))) := by
  obtain ⟨hb32, hpop, hlc, hc32⟩ := wf_shape hwf
  have hlen : (ch.eraseIdx (childIdx bm b)).length = ch.length - 1 := by
    rw [List.length_eraseIdx, if_pos hlt]
  apply wfNode_interior_of
  · refine ⟨lt_of_le_of_lt (removeBit_le bm b) hb32, ?_, by omega, hc32⟩
    have h1 := popcountBelow_removeBit ht 32
    rw [if_pos hb] at h1
    rw [hlen]
    omega
  · exact wf_depth hwf
  · intro b2 hb2 ht2
    rw [testBit_removeBit] at ht2
    simp only [Bool.and_eq_true, Bool.not_eq_eq_eq_not, Bool.not_true,
      decide_eq_false_iff_not] at ht2
    obtain ⟨htb, hneq⟩ := ht2
    obtain ⟨hltold, hwold, hsold⟩ := wf_child_of_bit hwf hb2 htb
    by_cases horder : b2 < b
    · have hidx : childIdx (removeBit bm b) b2 = childIdx bm b2 := by
        have h1 := popcountBelow_removeBit ht b2
        rw [if_neg (by omega)] at h1
        unfold childIdx
        omega
      have hjlt : childIdx bm b2 < childIdx bm b := childIdx_strict htb horder
      rw [hidx]
      refine ⟨by rw [hlen]; omega, ?_, ?_⟩
      · rw [List.getElem_eraseIdx_of_lt ch _ _ _ hjlt]
        exact hwold
      · rw [List.getElem_eraseIdx_of_lt ch _ _ _ hjlt]
        exact hsold
    · have horder2 : b < b2 := by
        rcases Nat.lt_trichotomy b b2 with hx | hx | hx
        · exact hx
        · exact absurd hx.symm hneq
        · exact absurd hx horder
      have hsucc : popcountBelow bm (b + 1) = popcountBelow bm b + 1 := by
        rw [popcountBelow_succ, if_pos ht]
      have hmono := popcountBelow_mono bm (show b + 1 ≤ b2 from by omega)
      have hidx : childIdx bm b2 = childIdx (removeBit bm b) b2 + 1 := by
        have h1 := popcountBelow_removeBit ht b2
        rw [if_pos horder2] at h1
        unfold childIdx
        omega
      have hjge : childIdx bm b ≤ childIdx (removeBit bm b) b2 := by
        unfold childIdx at hidx ⊢
        omega
      have hlt2 : childIdx (removeBit bm b) b2 + 1 < ch.length := by omega
      have hel : ch[childIdx (removeBit bm b) b2 + 1] = ch[childIdx bm b2] := by
        congr 1
        omega
      refine ⟨by rw [hlen]; omega, ?_, ?_⟩
      · rw [List.getElem_eraseIdx_of_ge ch _ _ _ hjge, hel]
        exact hwold
      · rw [List.getElem_eraseIdx_of_ge ch _ _ _ hjge, hel]
        exact hsold

/-! ### The master lemma for `remove` -/

/-- `InteriorNode::remove` on a well-formed subtree never hits an
assertion, keeps the subtree well-formed with its capacity unchanged,
removes exactly the target (hash, key) entry from the stored entries, and
returns `true` exactly when such an entry was present. -/
theorem removeN_spec :
    ∀ (m : Nat), ∀ (s : Nat), 64 ≤ m + s →
      ∀ (bm cap : Nat) (ch : List Node) (h k : Nat),
      wfNode s (.interior bm cap ch) →
      ∃ r bm2 ch2,
        removeN (.interior bm cap ch) h k s = some (r, .interior bm2 cap ch2) ∧
        wfNode s (.interior bm2 cap ch2) ∧
        entriesL ch2 = (entriesL ch).filter (keepEntry h k) ∧
        (r = true ↔ ∃ w, (h, k, w) ∈ entriesL ch) := by
  intro m
  induction m with
  | zero =>
    intro s hm bm cap ch h k hwf
    have := wf_depth hwf
    omega
  | succ m ih =>
    intro s hm bm cap ch h k hwf
    have hs5 : s + 5 < 64 := wf_depth hwf
    by_cases ht : bm.testBit (childBitNumber h s)
    · have hb32 : childBitNumber h s < 32 := childBitNumber_lt h s
      have hlt : childIdx bm (childBitNumber h s) < ch.length := by
        have h1 := childIdx_lt_popcount hb32 ht
        rw [(wf_shape hwf).2.1] at h1
        exact h1
      rcases hchild : ch[childIdx bm (childBitNumber h s)] with
        ⟨lh, lk, lv⟩ | ⟨b2, c2, ch2⟩
      · have hsome : ch[childIdx bm (childBitNumber h s)]? = some (.leaf lh lk lv) := by
          rw [List.getElem?_eq_getElem hlt, hchild]
        by_cases hm2 : lh = h ∧ lk = k
        · refine ⟨true, _, _, removeN_hit hs5 cap ht hsome hm2, ?_, ?_, ?_⟩
          · exact eraseChild_wf hwf hb32 ht hlt
          · rw [entriesL_eraseIdx, filter_keep_decomp k hwf hlt, hchild, entries_leaf]
            have hkeep : keepEntry h k (lh, lk, lv) = false := by
              rw [keepEntry_false_iff]
              exact hm2
            rw [List.filter_cons, hkeep]
            simp
          · apply iff_of_true rfl
            refine ⟨lv, mem_entriesL.mpr ⟨_, hlt, ?_⟩⟩
            rw [hchild, entries_leaf]
            obtain ⟨he1, he2⟩ := hm2
            subst he1; subst he2
            simp
        · refine ⟨false, _, _, removeN_miss hs5 cap ht hsome hm2, hwf, ?_, ?_⟩
          · rw [filter_keep_decomp k hwf hlt, hchild, entries_leaf]
            have hkeep : keepEntry h k (lh, lk, lv) = true := by
              rw [keepEntry_true_iff]
              exact fun hc => hm2 ⟨hc.1, hc.2⟩
            rw [List.filter_cons, hkeep]
            conv_lhs => rw [entriesL_decomp ch _ hlt, hchild, entries_leaf]
            simp
          · apply iff_of_false (by simp)
            rintro ⟨w, hw⟩
            obtain ⟨-, hlt2, hein⟩ := wf_entry_mem hwf hw
            dsimp only at hein
            rw [hchild, entries_leaf] at hein
            simp only [List.mem_singleton, Prod.mk.injEq] at hein
            exact hm2 ⟨hein.1.symm, hein.2.1.symm⟩
      · have hsome : ch[childIdx bm (childBitNumber h s)]?
            = some (.interior b2 c2 ch2) := by
          rw [List.getElem?_eq_getElem hlt, hchild]
        have hwold : wfNode (s + 5) (.interior b2 c2 ch2) := by
          have := wf_child_at_idx hwf hlt
          rw [hchild] at this
          exact this
        obtain ⟨r2, b3, ch3, hrec, hwf3, hent3, hiff3⟩ :=
          ih (s + 5) (by omega) b2 c2 ch2 h k hwold
        have hiff_glob : (∃ w, (h, k, w) ∈ entriesL ch) ↔
            (∃ w, (h, k, w) ∈ entriesL ch2) := by
          constructor
          · rintro ⟨w, hw⟩
            obtain ⟨-, hlt2, hein⟩ := wf_entry_mem hwf hw
            dsimp only at hein
            rw [hchild, entries_interior] at hein
            exact ⟨w, hein⟩
          · rintro ⟨w, hw⟩
            refine ⟨w, mem_entriesL.mpr ⟨_, hlt, ?_⟩⟩
            rw [hchild, entries_interior]
            exact hw
        rcases r2 with - | -
        · -- recursive remove found nothing
          refine ⟨false, bm, ch, ?_, hwf, ?_, ?_⟩
          · rw [removeN_rec hs5 cap ht hsome, hrec]
          · have hnone : ∀ e ∈ entriesL ch2, keepEntry h k e = true := by
              intro e he
              rw [keepEntry_true_iff]
              rintro ⟨h1, h2⟩
              have : ∃ w, (h, k, w) ∈ entriesL ch2 := by
                refine ⟨e.2.2, ?_⟩
                have he2 : e = (h, k, e.2.2) := by
                  rw [Prod.ext_iff]
                  exact ⟨h1, by rw [Prod.ext_iff]; exact ⟨h2, rfl⟩⟩
                rw [← he2]
                exact he
              rw [← hiff3] at this
              cases this
            rw [filter_keep_decomp k hwf hlt, hchild, entries_interior,
              List.filter_eq_self.mpr hnone]
            conv_lhs => rw [entriesL_decomp ch _ hlt, hchild, entries_interior]
          · apply iff_of_false (by simp)
            rintro hglob
            have := hiff_glob.mp hglob
            rw [← hiff3] at this
            cases this
        · -- recursive remove succeeded
          by_cases hb3 : b3 = 0
          · -- child became empty: remove it as well
            have hch3nil : ch3 = [] := by
              obtain ⟨-, hpop3, -, -⟩ := wf_shape hwf3
              rw [hb3, popcountBelow_zero] at hpop3
              exact List.length_eq_zero.mp hpop3.symm
            refine ⟨true, _, _, ?_, eraseChild_wf hwf hb32 ht hlt, ?_, ?_⟩
            · rw [removeN_rec hs5 cap ht hsome, hrec]
              dsimp only
              rw [if_pos hb3]
            · rw [entriesL_eraseIdx, filter_keep_decomp k hwf hlt, hchild,
                entries_interior, ← hent3, hch3nil, entriesL_nil]
              simp
            · exact iff_of_true rfl (hiff_glob.mpr (hiff3.mp rfl))
          · refine ⟨true, bm,
              ch.set (childIdx bm (childBitNumber h s)) (.interior b3 c2 ch3),
              ?_, ?_, ?_, ?_⟩
            · rw [removeN_rec hs5 cap ht hsome, hrec]
              dsimp only
              rw [if_neg hb3]
            · apply setChild_wf hwf hb32 ht hwf3
              rw [entries_interior]
              intro e he
              rw [hent3] at he
              have he2 : e ∈ entries ch[childIdx bm (childBitNumber h s)] := by
                rw [hchild, entries_interior]
                exact List.mem_of_mem_filter he
              exact wf_slice_at_target hwf ht hlt he2
            · rw [entriesL_set ch _ _ hlt, entries_interior, hent3,
                filter_keep_decomp k hwf hlt, hchild, entries_interior]
            · exact iff_of_true rfl (hiff_glob.mpr (hiff3.mp rfl))
    · refine ⟨false, bm, ch, removeN_no_bit hs5 cap ch k ht, hwf, ?_, ?_⟩
      · rw [filter_keep_all k hwf ht]
      · apply iff_of_false (by simp)
        rintro ⟨w, hw⟩
        have := (wf_entry_mem hwf hw).1
        dsimp only at this
        exact ht this

/-! ### The public interface, on well-formed trees -/

theorem wfTree_none : wfTree none := by rw [wfTree]; trivial

theorem entriesT_none : entriesT none = [] := by rw [entriesT]

theorem entriesT_some (r : Node) : entriesT (some r) = entries r := by rw [entriesT]

theorem wfNode_newRoot : wfNode 0 (.interior 0 32 []) :=
  wfNode_fresh 0 32 (le_refl 32) (by norm_num)

/-- `MHashTree::insert` on a well-formed tree: the result is well-formed
(the root keeps capacity 32) and the stored entries gain/replace the
target entry. -/
theorem treeInsert_spec (hf : Nat → Nat) (t : Option Node) (k : Nat) (v : Int)
    (hwf : wfTree t) {t2 : Option Node} (hins : treeInsert hf t k v = some t2) :
    wfTree t2 ∧ (entriesT t2).Perm
      ((hashOf hf k, k, v) :: (entriesT t).filter (keepEntry (hashOf hf k) k)) := by
  have hroot : ∃ bm cap ch, t.getD newRoot = .interior bm cap ch ∧ cap = 32 ∧
      wfNode 0 (.interior bm cap ch) ∧ entriesT t = entriesL ch := by
    cases t with
    | none =>
      exact ⟨0, 32, [], rfl, rfl, wfNode_newRoot, by rw [entriesT_none, entriesL_nil]⟩
    | some r =>
      cases r with
      | leaf a b c => rw [wfTree] at hwf; cases hwf
      | interior bm cap ch =>
        rw [wfTree] at hwf
        exact ⟨bm, cap, ch, rfl, hwf.1, hwf.2, by rw [entriesT_some, entries_interior]⟩
  obtain ⟨bm, cap, ch, hgd, hcap, hwfn, hent⟩ := hroot
  unfold treeInsert at hins
  rw [hgd] at hins
  rcases hrec : insertN (.interior bm cap ch) (hashOf hf k) k v 0 with - | n2
  · rw [hrec] at hins; cases hins
  · rw [hrec] at hins
    injection hins with hins
    subst hins
    obtain ⟨bm2, cap2, ch2, hn2, hwf2, hperm2, hcap2⟩ :=
      insertN_spec 64 0 (by norm_num) bm cap ch (hashOf hf k) k v n2 hwfn hrec
    subst hn2
    constructor
    · rw [wfTree]
      subst hcap
      exact ⟨hcap2 rfl, hwf2⟩
    · rw [entriesT_some, entries_interior, hent]
      exact hperm2

/-- `MHashTree::remove` on a well-formed tree never fails, keeps the tree
well-formed, removes exactly the target entry, and reports whether it was
present. -/
theorem treeRemove_spec (hf : Nat → Nat) (t : Option Node) (k : Nat)
    (hwf : wfTree t) :
    ∃ r t2, treeRemove hf t k = some (r, t2) ∧ wfTree t2 ∧
      entriesT t2 = (entriesT t).filter (keepEntry (hashOf hf k) k) ∧
      (r = true ↔ ∃ w, (hashOf hf k, k, w) ∈ entriesT t) := by
  cases t with
  | none =>
    refine ⟨false, none, rfl, wfTree_none, ?_, ?_⟩
    · rw [entriesT_none, List.filter_nil]
    · refine iff_of_false (by simp) ?_
      rintro ⟨w, hw⟩
      rw [entriesT_none] at hw
      cases hw
  | some r =>
    cases r with
    | leaf a b c => rw [wfTree] at hwf; cases hwf
    | interior bm cap ch =>
      rw [wfTree] at hwf
      obtain ⟨hcap, hwfn⟩ := hwf
      obtain ⟨r2, bm2, ch2, hrem, hwf2, hent2, hiff2⟩ :=
        removeN_spec 64 0 (by norm_num) bm cap ch (hashOf hf k) k hwfn
      refine ⟨r2, some (.interior bm2 cap ch2), ?_, ?_, ?_, ?_⟩
      · unfold treeRemove
        dsimp only
        rw [hrem]
      · rw [wfTree]
        exact ⟨hcap, hwf2⟩
      · rw [entriesT_some, entriesT_some, entries_interior, entries_interior]
        exact hent2
      · rw [entriesT_some, entries_interior]
        exact hiff2

/-- `MHashTree::get` returns the stored value of a present entry. -/
theorem treeGet_found (hf : Nat → Nat) (t : Option Node) (k : Nat) (v : Int)
    (hwf : wfTree t) (hmem : (hashOf hf k, k, v) ∈ entriesT t) :
    treeGet hf t k = v := by
  cases t with
  | none => rw [entriesT_none] at hmem; cases hmem
  | some r =>
    cases r with
    | leaf a b c => rw [wfTree] at hwf; cases hwf
    | interior bm cap ch =>
      rw [wfTree] at hwf
      rw [entriesT_some, entries_interior] at hmem
      have hfind := findNearest_found 64 0 (by norm_num) bm cap ch hwf.2
        (hashOf hf k) k v hmem
      rw [Nat.shiftRight_zero] at hfind
      unfold treeGet
      dsimp only
      rw [hfind]
      dsimp only
      rw [if_pos ⟨rfl, rfl⟩]

/-- `MHashTree::get` returns the default-constructed value (0) when no
entry carries the key (with its hash). -/
theorem treeGet_absent (hf : Nat → Nat) (t : Option Node) (k : Nat)
    (hwf : wfTree t) (hnone : ∀ v : Int, (hashOf hf k, k, v) ∉ entriesT t) :
    treeGet hf t k = 0 := by
  cases t with
  | none => rw [treeGet]
  | some r =>
    rcases hfind : findNearest r (hashOf hf k) with - | - | ⟨lh, lk, lv⟩
    · unfold treeGet
      dsimp only
      rw [hfind]
    · unfold treeGet
      dsimp only
      rw [hfind]
    · unfold treeGet
      dsimp only
      rw [hfind]
      dsimp only
      by_cases hc : lh = hashOf hf k ∧ lk = k
      · exfalso
        have hmem := findNearest_found_mem (sizeOf r) r (le_refl _) _ _ _ _ hfind
        obtain ⟨hc1, hc2⟩ := hc
        subst hc1; subst hc2
        exact hnone lv (by rw [entriesT_some]; exact hmem)
      · rw [if_neg hc]

/-- Any tree produced by a run of public operations from the empty tree is
well-formed. -/
theorem runOps_wf (hf : Nat → Nat) :
    ∀ (ops : List Op) (t st : Option Node), wfTree t →
      runOps hf t ops = some st → wfTree st := by
  intro ops
  induction ops with
  | nil =>
    intro t st hwf hrun
    rw [runOps] at hrun
    injection hrun with hrun
    subst hrun
    exact hwf
  | cons op ops ih =>
    intro t st hwf hrun
    cases op with
    | ins k v =>
      rw [runOps] at hrun
      rcases hstep : treeInsert hf t k v with - | t2
      · rw [hstep] at hrun; cases hrun
      · rw [hstep] at hrun
        exact ih t2 st (treeInsert_spec hf t k v hwf hstep).1 hrun
    | del k =>
      rw [runOps] at hrun
      obtain ⟨r, t2, hstep, hwf2, -, -⟩ := treeRemove_spec hf t k hwf
      rw [hstep] at hrun
      exact ih t2 st hwf2 hrun

/-! ### Claims C1, C3, C5, C6, C9: the HAMT point operations -/

/-- Claim C1: on any well-formed (API-reachable) trie, after a completed
`insert(k,v)`, `get(k)` returns `v`.  In particular, inserting `k` twice
leaves `get(k)` at the second value, since the second insert is itself an
insert on a reachable trie. -/
theorem insert_get_roundtrip (hf : Nat → Nat) (t : Option Node) (k : Nat)
    (v : Int) (t2 : Option Node) (hwf : wfTree t)
    (hins : treeInsert hf t k v = some t2) :
    treeGet hf t2 k = v := by
  obtain ⟨hwf2, hperm⟩ := treeInsert_spec hf t k v hwf hins
  exact treeGet_found hf t2 k v hwf2 (hperm.mem_iff.mpr (List.mem_cons_self _ _))

/-- Claim C3: insert then remove: the remove returns true, a subsequent
get returns the default-constructed value 0, and a second remove returns
false. -/
theorem insert_remove_get (hf : Nat → Nat) (t : Option Node) (k : Nat)
    (v : Int) (t2 : Option Node) (hwf : wfTree t)
    (hins : treeInsert hf t k v = some t2) :
    ∃ t3, treeRemove hf t2 k = some (true, t3) ∧ treeGet hf t3 k = 0 ∧
      ∃ t4, treeRemove hf t3 k = some (false, t4) := by
  obtain ⟨hwf2, hperm⟩ := treeInsert_spec hf t k v hwf hins
  obtain ⟨r, t3, hrem, hwf3, hent3, hiff3⟩ := treeRemove_spec hf t2 k hwf2
  have hr : r = true :=
    hiff3.mpr ⟨v, hperm.mem_iff.mpr (List.mem_cons_self _ _)⟩
  subst hr
  have hnone3 : ∀ w : Int, (hashOf hf k, k, w) ∉ entriesT t3 := by
    intro w hw
    rw [hent3] at hw
    have hkeep := (List.mem_filter.mp hw).2
    rw [keepEntry_true_iff] at hkeep
    exact hkeep ⟨rfl, rfl⟩
  refine ⟨t3, hrem, treeGet_absent hf t3 k hwf3 hnone3, ?_⟩
  obtain ⟨r2, t4, hrem2, -, -, hiff4⟩ := treeRemove_spec hf t3 k hwf3
  rcases r2 with - | -
  · exact ⟨t4, hrem2⟩
  · exfalso
    obtain ⟨w, hw⟩ := hiff4.mp rfl
    exact hnone3 w hw

/-- Claim C5: on any well-formed trie, `remove` never fails (it always
returns a boolean — no assertion fires, in particular not the hash-depth
assertion at its head, modelled by the `none` result), and the `findNearest`
descent of `get` can never reach the out-of-bounds child read (the
`assert(i < _capacity)`), whatever the key's hash. -/
theorem lookup_remove_never_fail (hf : Nat → Nat) (t : Option Node) (k : Nat)
    (hwf : wfTree t) :
    (∃ res, treeRemove hf t k = some res) ∧
    (∀ r, t = some r → findNearest r (hashOf hf k) ≠ .assertFail) := by
  constructor
  · obtain ⟨r, t2, hrem, -, -, -⟩ := treeRemove_spec hf t k hwf
    exact ⟨(r, t2), hrem⟩
  · intro r hr
    subst hr
    cases r with
    | leaf a b c => rw [wfTree] at hwf; cases hwf
    | interior bm cap ch =>
      rw [wfTree] at hwf
      exact findNearest_no_assertFail 64 0 (by norm_num) bm cap ch hwf.2 _

/-- Claim C9: inserting a key that is already present (same hash and key)
only overwrites the value inside that key's leaf: the insert completes, no
node's bitmap, capacity or child arrangement changes (`stripVals`
equality), and the entry list is unchanged except for the one value. -/
theorem insert_existing_frame (hf : Nat → Nat) (r : Node) (k : Nat) (v w : Int)
    (hwf : wfTree (some r)) (hmem : (hashOf hf k, k, w) ∈ entriesT (some r)) :
    ∃ r2, treeInsert hf (some r) k v = some (some r2) ∧
      stripVals r2 = stripVals r ∧
      entries r2 = (entries r).map
        (fun e => if e.1 = hashOf hf k ∧ e.2.1 = k then (hashOf hf k, k, v) else e) := by
  cases r with
  | leaf a b c => rw [wfTree] at hwf; cases hwf
  | interior bm cap ch =>
    rw [wfTree] at hwf
    rw [entriesT_some, entries_interior] at hmem
    obtain ⟨ch2, hrec, hstrip, hmap⟩ :=
      insertN_frame 64 0 (by norm_num) bm cap ch (hashOf hf k) k v w hwf.2 hmem
    refine ⟨.interior bm cap ch2, ?_, ?_, ?_⟩
    · unfold treeInsert
      rw [Option.getD_some, hrec]
    · rw [stripVals_interior, stripVals_interior, hstrip]
    · rw [entries_interior, entries_interior, hmap]

/-- Claim C6: the fresh interior node created when `insert` splits a leaf
at shift `s` has capacity `2 + (level<1) + (level<3)` with `level = s/5`:
4 at level 0, 3 at levels 1 and 2, and 2 at levels 3 and beyond.
(`newNodeCapacity` is the exact expression from `InteriorNode::insert`,
and `insertN`'s split case builds the fresh node with it.) -/
theorem new_node_capacity_schedule (s : Nat) :
    (s / 5 = 0 → newNodeCapacity s = 4) ∧
    ((s / 5 = 1 ∨ s / 5 = 2) → newNodeCapacity s = 3) ∧
    (3 ≤ s / 5 → newNodeCapacity s = 2) := by
  unfold newNodeCapacity
  refine ⟨fun h0 => ?_, fun h12 => ?_, fun h3 => ?_⟩
  · rw [if_pos (by omega), if_pos (by omega)]
  · rw [if_neg (by omega), if_pos (by omega)]
  · rw [if_neg (by omega), if_neg (by omega)]

/-- Witness for `new_node_capacity_schedule` at the concrete shifts
0 (level 0), 10 (level 2) and 15 (level 3). -/
theorem new_node_capacity_schedule_witness :
    newNodeCapacity 0 = 4 ∧ newNodeCapacity 10 = 3 ∧ newNodeCapacity 15 = 2 :=
  ⟨(new_node_capacity_schedule 0).1 (by norm_num),
   (new_node_capacity_schedule 10).2.1 (by norm_num),
   (new_node_capacity_schedule 15).2.2 (by norm_num)⟩

/-- The one-insert tree used by the witnesses: inserting key 3 (hash 3
under the identity hash) into the empty tree. -/
theorem insert3_eval :
    treeInsert id none 3 7 = some (some (.interior 8 32 [.leaf 3 3 7])) := by
  simp +decide [treeInsert, insertN, newRoot, hashOf, childBitNumber, addChildN,
    childIdx, popcountBelow, addBit]

/-- Witness for `insert_get_roundtrip` at the empty tree, key 3, value 7. -/
theorem insert_get_roundtrip_witness :
    wfTree none ∧ treeGet id ((treeInsert id none 3 7).getD none) 3 = 7 := by
  refine ⟨wfTree_none, ?_⟩
  rw [insert3_eval, Option.getD_some]
  exact insert_get_roundtrip id none 3 7 _ wfTree_none insert3_eval

/-- Witness for `insert_remove_get` at the empty tree, key 3, value 7. -/
theorem insert_remove_get_witness :
    wfTree none ∧
    ∃ t3, treeRemove id ((treeInsert id none 3 7).getD none) 3 = some (true, t3) ∧
      treeGet id t3 3 = 0 ∧ ∃ t4, treeRemove id t3 3 = some (false, t4) := by
  refine ⟨wfTree_none, ?_⟩
  rw [insert3_eval, Option.getD_some]
  exact insert_remove_get id none 3 7 _ wfTree_none insert3_eval

/-- Witness for `lookup_remove_never_fail` at the one-entry tree. -/
theorem lookup_remove_never_fail_witness :
    (∃ res, treeRemove id ((treeInsert id none 3 7).getD none) 3 = some res) ∧
    (∀ r, (treeInsert id none 3 7).getD none = some r →
      findNearest r (hashOf id 3) ≠ .assertFail) := by
  have hwf2 := (treeInsert_spec id none 3 7 wfTree_none insert3_eval).1
  rw [insert3_eval, Option.getD_some]
  exact lookup_remove_never_fail id (some (.interior 8 32 [.leaf 3 3 7])) 3 hwf2

/-- Witness for `insert_existing_frame`: overwriting key 3 in the
one-entry tree. -/
theorem insert_existing_frame_witness :
    ∃ r2, treeInsert id (some (.interior 8 32 [.leaf 3 3 7])) 3 9 = some (some r2) ∧
      stripVals r2 = stripVals (.interior 8 32 [.leaf 3 3 7]) ∧
      entries r2 = (entries (.interior 8 32 [.leaf 3 3 7])).map
        (fun e => if e.1 = hashOf id 3 ∧ e.2.1 = 3 then (hashOf id 3, 3, 9) else e) := by
  have hwf2 := (treeInsert_spec id none 3 7 wfTree_none insert3_eval).1
  apply insert_existing_frame id _ 3 9 7 hwf2
  simp +decide [entriesT, entries, entriesL, hashOf]

/-! ### Claim C4: the structural invariant -/

theorem wfShapeTree_of_wfTree (t : Option Node) (hwf : wfTree t) :
    wfShapeTree t := by
  cases t with
  | none => rw [wfShapeTree]; trivial
  | some r =>
    cases r with
    | leaf a b c => rw [wfTree] at hwf; cases hwf
    | interior bm cap ch =>
      rw [wfTree] at hwf
      rw [wfShapeTree]
      exact wfShape_of_wfNode 64 0 (by norm_num) _ hwf.2

/-- Claim C4: every trie reachable by the public API from the empty trie
satisfies, at every interior node, `popcount(bitmap) = number of children
≤ capacity ≤ 32` (`shapeOk` / `wfShape`), and one more `insert` or `remove`
on a reachable (well-formed) trie preserves the predicate. -/
theorem shape_reachable_preserved (hf : Nat → Nat) :
    (∀ ops st, runOps hf none ops = some st → wfShapeTree st) ∧
    (∀ t k v t2, wfTree t → treeInsert hf t k v = some t2 → wfShapeTree t2) ∧
    (∀ t k r t2, wfTree t → treeRemove hf t k = some (r, t2) → wfShapeTree t2) := by
  refine ⟨?_, ?_, ?_⟩
  · intro ops st hrun
    exact wfShapeTree_of_wfTree st (runOps_wf hf ops none st wfTree_none hrun)
  · intro t k v t2 hwf hins
    exact wfShapeTree_of_wfTree t2 (treeInsert_spec hf t k v hwf hins).1
  · intro t k r t2 hwf hrem
    obtain ⟨r2, t3, hrem2, hwf3, -, -⟩ := treeRemove_spec hf t k hwf
    rw [hrem2] at hrem
    injection hrem with hrem
    injection hrem with h1 h2
    subst h2
    exact wfShapeTree_of_wfTree t3 hwf3

/-- Inserting key 4 (a fresh slot) into a one-leaf root holding key 3. -/
theorem insert4_eval (w : Int) :
    treeInsert id (some (.interior 8 32 [.leaf 3 3 w])) 4 8
      = some (some (.interior 24 32 [.leaf 3 3 w, .leaf 4 4 8])) := by
  have h1 : insertN (.interior 8 32 [.leaf 3 3 w]) (hashOf id 4) 4 8 0
      = some (addChildN 8 32 [.leaf 3 3 w] (childBitNumber (hashOf id 4) 0)
          (.leaf (hashOf id 4) 4 8)) :=
    insertN_empty_slot (by omega) 32 4 8 (by decide)
  rw [treeInsert, Option.getD_some, h1]
  rfl

/-- Overwriting key 3's value in a one-leaf root. -/
theorem insert3_again_eval :
    treeInsert id (some (.interior 8 32 [.leaf 3 3 7])) 3 9
      = some (some (.interior 8 32 [.leaf 3 3 9])) := by
  have h1 : insertN (.interior 8 32 [.leaf 3 3 7]) (hashOf id 3) 3 9 0
      = some (.interior 8 32
          (([.leaf 3 3 7] : List Node).set
            (childIdx 8 (childBitNumber (hashOf id 3) 0)) (.leaf 3 3 9))) :=
    insertN_overwrite (by omega) 32 9 (by decide)
      (show ([.leaf 3 3 7] : List Node)[childIdx 8 (childBitNumber (hashOf id 3) 0)]?
          = some (.leaf 3 3 7) from rfl)
      ⟨rfl, rfl⟩
  rw [treeInsert, Option.getD_some, h1]
  rfl

/-- Removing key 3 from a two-leaf root holding keys 3 and 4. -/
theorem remove4_eval (w : Int) :
    treeRemove id (some (.interior 24 32 [.leaf 3 3 w, .leaf 4 4 8])) 3
      = some (true, some (.interior 16 32 [.leaf 4 4 8])) := by
  have h1 : removeN (.interior 24 32 [.leaf 3 3 w, .leaf 4 4 8]) (hashOf id 3) 3 0
      = some (true, .interior (removeBit 24 (childBitNumber (hashOf id 3) 0)) 32
          (([.leaf 3 3 w, .leaf 4 4 8] : List Node).eraseIdx
            (childIdx 24 (childBitNumber (hashOf id 3) 0)))) :=
    removeN_hit (by omega) 32 (by decide)
      (show ([.leaf 3 3 w, .leaf 4 4 8] : List Node)[childIdx 24
          (childBitNumber (hashOf id 3) 0)]? = some (.leaf 3 3 w) from rfl)
      ⟨rfl, rfl⟩
  rw [treeRemove, h1]
  rfl

/-- Evaluating the three-operation run used by the C2 and C4 witnesses. -/
theorem run3_eval :
    runOps id none [.ins 3 7, .ins 4 8, .del 3]
      = some (some (.interior 16 32 [.leaf 4 4 8])) := by
  rw [runOps, insert3_eval]
  dsimp only
  rw [runOps, insert4_eval 7]
  dsimp only
  rw [runOps, remove4_eval 7]
  dsimp only
  rw [runOps]

/-- Witness for `shape_reachable_preserved`: a two-insert, one-remove run
and one more insert on its (well-formed) result. -/
theorem shape_reachable_preserved_witness :
    wfShapeTree ((runOps id none [.ins 3 7, .ins 4 8, .del 3]).getD none) ∧
    wfShapeTree ((treeInsert id ((treeInsert id none 3 7).getD none) 4 8).getD none) := by
  constructor
  · rw [run3_eval, Option.getD_some]
    exact (shape_reachable_preserved id).1 [.ins 3 7, .ins 4 8, .del 3] _ run3_eval
  · have hbase : (treeInsert id none 3 7).getD none
        = some (.interior 8 32 [.leaf 3 3 7]) := by
      rw [insert3_eval, Option.getD_some]
    rw [hbase, insert4_eval 7, Option.getD_some]
    refine (shape_reachable_preserved id).2.1 (some (.interior 8 32 [.leaf 3 3 7]))
      4 8 (some (.interior 24 32 [.leaf 3 3 7, .leaf 4 4 8])) ?_ (insert4_eval 7)
    exact (treeInsert_spec id none 3 7 wfTree_none insert3_eval).1

/-! ### Claim C2: count -/

theorem map_filter_comm {α β : Type} (f : α → β) (q : β → Bool) (l : List α) :
    (l.filter (fun a => q (f a))).map f = (l.map f).filter q := by
  induction l with
  | nil => simp
  | cons a as ih =>
    by_cases hq : q (f a)
    · simp [List.filter_cons, hq, ih]
    · simp [List.filter_cons, hq, ih]

theorem insert_erase_self (k : Nat) (S : Finset Nat) :
    insert k (S.erase k) = insert k S := by
  ext x
  simp only [Finset.mem_insert, Finset.mem_erase]
  constructor
  · rintro (h | ⟨-, h⟩)
    · exact Or.inl h
    · exact Or.inr h
  · rintro (h | h)
    · exact Or.inl h
    · by_cases hx : x = k
      · exact Or.inl hx
      · exact Or.inr ⟨hx, h⟩

/-- With a coherent hash column (every stored hash is the hash of its key),
the removal filter keeps exactly the entries with a different key. -/
theorem filter_keep_eq_key_filter (hf : Nat → Nat) (k : Nat)
    (l : List (Nat × Nat × Int)) (hcoh : ∀ e ∈ l, e.1 = hashOf hf e.2.1) :
    l.filter (keepEntry (hashOf hf k) k) = l.filter (fun e => decide (e.2.1 ≠ k)) := by
  apply List.filter_congr
  intro e he
  by_cases hk : e.2.1 = k
  · have h1 : e.1 = hashOf hf k := by rw [hcoh e he, hk]
    have h2 : keepEntry (hashOf hf k) k e = false := by
      rw [keepEntry_false_iff]
      exact ⟨h1, hk⟩
    rw [h2]
    simp [hk]
  · have h2 : keepEntry (hashOf hf k) k e = true := by
      rw [keepEntry_true_iff]
      rintro ⟨-, hc⟩
      exact hk hc
    rw [h2]
    simp [hk]

/-- The run invariant for claim C2: along any completed run, the tree is
well-formed, every stored hash is its key's hash, the stored keys are
pairwise distinct, and their set is the fold of the executed inserts and
removes. -/
theorem runOps_inv (hf : Nat → Nat) :
    ∀ (ops : List Op) (t : Option Node) (S : Finset Nat),
      wfTree t →
      (∀ e ∈ entriesT t, e.1 = hashOf hf e.2.1) →
      (keysT t).Nodup →
      (keysT t).toFinset = S →
      ∀ st, runOps hf t ops = some st →
        wfTree st ∧ (∀ e ∈ entriesT st, e.1 = hashOf hf e.2.1) ∧
        (keysT st).Nodup ∧
        (keysT st).toFinset = ops.foldl
          (fun s op =>
            match op with
            | .ins kk _ => insert kk s
            | .del kk => s.erase kk) S := by
  intro ops
  induction ops with
  | nil =>
    intro t S hwf hcoh hnd hfin st hrun
    rw [runOps] at hrun
    injection hrun with hrun
    subst hrun
    exact ⟨hwf, hcoh, hnd, hfin⟩
  | cons op ops ih =>
    intro t S hwf hcoh hnd hfin st hrun
    cases op with
    | ins k v =>
      rw [runOps] at hrun
      rcases hstep : treeInsert hf t k v with - | t2
      · rw [hstep] at hrun; cases hrun
      · rw [hstep] at hrun
        obtain ⟨hwf2, hperm⟩ := treeInsert_spec hf t k v hwf hstep
        have hfilter := filter_keep_eq_key_filter hf k (entriesT t) hcoh
        have hkeys2 : (keysT t2).Perm
            (k :: (keysT t).filter (fun kk => decide (kk ≠ k))) := by
          have h1 := hperm.map (fun e : Nat × Nat × Int => e.2.1)
          rw [hfilter, List.map_cons] at h1
          rw [@map_filter_comm (Nat × Nat × Int) Nat (fun e => e.2.1)
            (fun kk => decide (kk ≠ k)) (entriesT t)] at h1
          dsimp only at h1
          simp only [keysT]
          exact h1
        have hcoh2 : ∀ e ∈ entriesT t2, e.1 = hashOf hf e.2.1 := by
          intro e he
          have hmem := hperm.mem_iff.mp he
          rw [List.mem_cons] at hmem
          rcases hmem with he2 | he2
          · rw [he2]
          · exact hcoh e (List.mem_of_mem_filter he2)
        have hnd2 : (keysT t2).Nodup := by
          rw [hkeys2.nodup_iff]
          refine List.Nodup.cons ?_ (List.Nodup.filter _ hnd)
          intro hc
          have := (List.mem_filter.mp hc).2
          simp at this
        have hfin2 : (keysT t2).toFinset = insert k S := by
          rw [List.toFinset_eq_of_perm _ _ hkeys2, List.toFinset_cons,
            List.toFinset_filter]
          have herase : Finset.filter (fun x => decide (x ≠ k) = true)
              (keysT t).toFinset = (keysT t).toFinset.erase k := by
            ext x
            simp only [Finset.mem_filter, Finset.mem_erase, decide_eq_true_eq]
            tauto
          rw [herase, hfin, insert_erase_self]
        have := ih t2 (insert k S) hwf2 hcoh2 hnd2 hfin2 st hrun
        rw [List.foldl_cons]
        exact this
    | del k =>
      rw [runOps] at hrun
      obtain ⟨r, t2, hstep, hwf2, hent2, -⟩ := treeRemove_spec hf t k hwf
      rw [hstep] at hrun
      have hfilter := filter_keep_eq_key_filter hf k (entriesT t) hcoh
      have hkeys2 : keysT t2 = (keysT t).filter (fun kk => decide (kk ≠ k)) := by
        simp only [keysT]
        rw [hent2, hfilter]
        rw [@map_filter_comm (Nat × Nat × Int) Nat (fun e => e.2.1)
          (fun kk => decide (kk ≠ k)) (entriesT t)]
      have hcoh2 : ∀ e ∈ entriesT t2, e.1 = hashOf hf e.2.1 := by
        intro e he
        rw [hent2] at he
        exact hcoh e (List.mem_of_mem_filter he)
      have hnd2 : (keysT t2).Nodup := by
        rw [hkeys2]
        exact List.Nodup.filter _ hnd
      have hfin2 : (keysT t2).toFinset = S.erase k := by
        rw [hkeys2, List.toFinset_filter]
        ext x
        simp only [Finset.mem_filter, Finset.mem_erase, decide_eq_true_eq, hfin]
        tauto
      have := ih t2 (S.erase k) hwf2 hcoh2 hnd2 hfin2 st hrun
      rw [List.foldl_cons]
      exact this

/-- Claim C2: after any completed sequence of inserts and removes starting
from the empty trie, `count()` equals the number of distinct keys inserted
and not subsequently removed. -/
theorem count_equals_survivors (hf : Nat → Nat) (ops : List Op)
    (st : Option Node) (hrun : runOps hf none ops = some st) :
    treeCount st = (survivors ops).card := by
  obtain ⟨hwf, -, hnd, hfin⟩ := runOps_inv hf ops none ∅ wfTree_none
    (by rw [entriesT_none]; intro e he; cases he)
    (by rw [keysT, entriesT_none]; simp)
    (by rw [keysT, entriesT_none]; simp)
    st hrun
  have hsurv : survivors ops = (keysT st).toFinset := by
    rw [hfin, survivors]
  have hcount : treeCount st = (entriesT st).length := by
    cases st with
    | none => rw [entriesT_none]; rfl
    | some r =>
      cases r with
      | leaf a b c => rw [wfTree] at hwf; cases hwf
      | interior bm cap ch =>
        rw [wfTree] at hwf
        rw [entriesT_some]
        exact itemCount_entries 64 0 (by norm_num) _ hwf.2
  rw [hcount, hsurv, List.toFinset_card_of_nodup hnd, keysT, List.length_map]

/-- Evaluating the four-operation run (key 3 inserted twice) used by the
C2 witness. -/
theorem run4_eval :
    runOps id none [.ins 3 7, .ins 3 9, .ins 4 8, .del 3]
      = some (some (.interior 16 32 [.leaf 4 4 8])) := by
  rw [runOps, insert3_eval]
  dsimp only
  rw [runOps, insert3_again_eval]
  dsimp only
  rw [runOps, insert4_eval 9]
  dsimp only
  rw [runOps, remove4_eval 9]
  dsimp only
  rw [runOps]

/-- Witness for `count_equals_survivors`: two inserts (one key twice) and
a remove leave exactly one surviving key. -/
theorem count_equals_survivors_witness :
    treeCount ((runOps id none [.ins 3 7, .ins 3 9, .ins 4 8, .del 3]).getD none)
      = (survivors [.ins 3 7, .ins 3 9, .ins 4 8, .del 3]).card ∧
    (survivors [.ins 3 7, .ins 3 9, .ins 4 8, .del 3]).card = 1 := by
  constructor
  · rw [run4_eval, Option.getD_some]
    exact count_equals_survivors id _ _ run4_eval
  · rw [survivors]
    decide

/-! ### Claims C7, C8 and C10: `smallVector` -/

/-- Claim C8: `setCapacity(cap)` fails loudly (`logic_error`) when `cap` is
smaller than the current size, fails loudly (`domain_error`) when
`cap ≥ 2^32`, and otherwise succeeds with the new capacity equal to `cap`.
The hypotheses are the representation invariants of the C++ object:
`_size <= _capacity`, and `_capacity` is a `uint32_t`. -/
theorem setCapacity_spec (N cap : Nat) (sv : smallVector)
    (hsz : sv.elems.length ≤ sv.capacity) (hword : sv.capacity ≤ 2 ^ 32 - 1) :
    (cap < sv.elems.length → sv.setCapacity N cap = .error .shrinkBelowSize) ∧
    (2 ^ 32 ≤ cap → sv.setCapacity N cap = .error .capacityTooLarge) ∧
    (sv.elems.length ≤ cap → cap ≤ 2 ^ 32 - 1 →
      ∃ sv', sv.setCapacity N cap = .ok sv' ∧ sv'.capacity = cap ∧
        sv'.elems = sv.elems) := by
  refine ⟨fun hlt => ?_, fun hbig => ?_, fun hge hle => ?_⟩
  · simp only [smallVector.setCapacity]
    rw [if_neg (by omega), if_pos hlt]
  · simp only [smallVector.setCapacity]
    rw [if_neg (by omega), if_neg (by omega), if_pos (by omega)]
  · simp only [smallVector.setCapacity]
    by_cases heq : cap = sv.capacity
    · subst heq; simp
    · rw [if_neg heq, if_neg (by omega), if_neg (by omega)]
      by_cases hN : cap ≤ N <;> simp [hN]

/-- Witness for `setCapacity_spec` at a concrete vector: shrinking below
size fails, `2^32` fails, and an admissible request succeeds. -/
theorem setCapacity_spec_witness :
    (smallVector.mk [1, 2, 3] 6 true).setCapacity 4 2 = .error .shrinkBelowSize ∧
    (smallVector.mk [1, 2, 3] 6 true).setCapacity 4 (2 ^ 32) = .error .capacityTooLarge ∧
    ∃ sv', (smallVector.mk [1, 2, 3] 6 true).setCapacity 4 8 = .ok sv' ∧
      sv'.capacity = 8 ∧ sv'.elems = [1, 2, 3] := by
  obtain ⟨h1, h2, h3⟩ :=
    setCapacity_spec 4 2 (smallVector.mk [1, 2, 3] 6 true) (by norm_num) (by norm_num)
  obtain ⟨h4, h5, h6⟩ :=
    setCapacity_spec 4 (2 ^ 32) (smallVector.mk [1, 2, 3] 6 true) (by norm_num) (by norm_num)
  obtain ⟨h7, h8, h9⟩ :=
    setCapacity_spec 4 8 (smallVector.mk [1, 2, 3] 6 true) (by norm_num) (by norm_num)
  exact ⟨h1 (by norm_num), h5 (by norm_num), h9 (by norm_num) (by norm_num)⟩

/-- A full `smallVector` whose grown capacity would exceed `UINT32_MAX`:
`push_back` propagates `setCapacity`'s `domain_error`. -/
theorem push_back_overflow (N : Nat) (sv : smallVector) (t : Int)
    (hfull : sv.elems.length = sv.capacity)
    (hover : 2 ^ 32 - 1 < max (sv.capacity + sv.capacity / 2) (sv.elems.length + 1)) :
    sv.push_back N t = .error .capacityTooLarge := by
  unfold smallVector.push_back smallVector.setCapacity
  rw [if_pos (by omega), if_neg (by omega), if_neg (by omega), if_pos (by omega)]

/-- Claim C7, as stated, is falsified at a full vector whose capacity is
already `UINT32_MAX`: the grown capacity `max(2^32−1 + (2^32−1)/2, 2^32)`
exceeds `UINT32_MAX`, so `push_back` throws `domain_error` instead of
growing. -/
theorem push_back_overflow_cex :
    (smallVector.mk (List.replicate (2 ^ 32 - 1) 0) (2 ^ 32 - 1) true).push_back 4 5
      = .error .capacityTooLarge := by
  refine push_back_overflow 4 _ 5 ?_ ?_ <;> rw [List.length_replicate] <;> omega

/-- Claim C7 (amended): when size equals capacity and the grown capacity
`max(current + current/2, needed)` does not exceed `UINT32_MAX`, a
`push_back` grows the capacity to exactly that value; a push when size is
below capacity leaves the capacity unchanged. -/
theorem push_back_growth (N : Nat) (sv : smallVector) (t : Int) :
    (sv.elems.length = sv.capacity →
      max (sv.capacity + sv.capacity / 2) (sv.elems.length + 1) ≤ 2 ^ 32 - 1 →
      ∃ sv', sv.push_back N t = .ok sv' ∧
        sv'.capacity = max (sv.capacity + sv.capacity / 2) (sv.elems.length + 1) ∧
        sv'.elems = sv.elems ++ [t]) ∧
    (sv.elems.length < sv.capacity →
      sv.push_back N t = .ok ⟨sv.elems ++ [t], sv.capacity, sv.big⟩) := by
  constructor
  · intro hfull hbound
    obtain ⟨sv', hok, hcap, helems⟩ :=
      (setCapacity_spec N (max (sv.capacity + sv.capacity / 2) (sv.elems.length + 1)) sv
        (by omega) (by omega)).2.2 (by omega) hbound
    refine ⟨⟨sv'.elems ++ [t], sv'.capacity, sv'.big⟩, ?_, hcap, by rw [helems]⟩
    unfold smallVector.push_back
    rw [if_pos (by omega), hok]
  · intro hlt
    unfold smallVector.push_back
    rw [if_neg (by omega)]

/-- Witness for `push_back_growth`: a full inline vector of 2 elements
grows to capacity `max(2+1, 3) = 3`, and a non-full one keeps capacity. -/
theorem push_back_growth_witness :
    (∃ sv', (smallVector.mk [7, 8] 2 false).push_back 4 9 = .ok sv' ∧
        sv'.capacity = 3 ∧ sv'.elems = [7, 8, 9]) ∧
    (smallVector.mk [7] 4 false).push_back 4 9 = .ok ⟨[7, 9], 4, false⟩ := by
  constructor
  · obtain ⟨sv', h1, h2, h3⟩ :=
      (push_back_growth 4 (smallVector.mk [7, 8] 2 false) 9).1 (by norm_num) (by norm_num)
    exact ⟨sv', h1, by simpa using h2, by simpa using h3⟩
  · exact (push_back_growth 4 (smallVector.mk [7] 4 false) 9).2 (by norm_num)

/-- Claim C10: the size-shrinking operations `pop_back`, `erase`, `clear`
and `resize` to a not-larger size leave both the capacity and the storage
location (inline vs heap, the `_big` pointer) unchanged. -/
theorem shrink_frame (N sz i j : Nat) (sv : smallVector) :
    (sv.pop_back.capacity = sv.capacity ∧ sv.pop_back.big = sv.big) ∧
    ((sv.erase i j).capacity = sv.capacity ∧ (sv.erase i j).big = sv.big) ∧
    (sv.clear.capacity = sv.capacity ∧ sv.clear.big = sv.big) ∧
    (sz ≤ sv.elems.length →
      sv.resize N sz = .ok (sv.shrinkTo sz) ∧
      (sv.shrinkTo sz).capacity = sv.capacity ∧ (sv.shrinkTo sz).big = sv.big) := by
  refine ⟨⟨rfl, rfl⟩, ⟨rfl, rfl⟩, ?_, fun hle => ?_⟩
  · unfold smallVector.clear smallVector.shrinkTo
    by_cases h0 : 0 < sv.elems.length <;> simp [h0]
  · refine ⟨?_, ?_⟩
    · unfold smallVector.resize
      rw [if_neg (by omega)]
    · unfold smallVector.shrinkTo
      by_cases h0 : sz < sv.elems.length <;> simp [h0]

/-- Witness for `shrink_frame` at a concrete heap-backed vector. -/
theorem shrink_frame_witness :
    ((smallVector.mk [1, 2, 3, 4, 5] 6 true).pop_back.capacity = 6 ∧
      (smallVector.mk [1, 2, 3, 4, 5] 6 true).pop_back.big = true) ∧
    (smallVector.mk [1, 2, 3, 4, 5] 6 true).resize 4 2
      = .ok ((smallVector.mk [1, 2, 3, 4, 5] 6 true).shrinkTo 2) := by
  have h := shrink_frame 4 2 1 3 (smallVector.mk [1, 2, 3, 4, 5] 6 true)
  exact ⟨h.1, (h.2.2.2 (by norm_num)).1⟩

end Fleece
